import Mathlib

/-!
Verification of the `avl` C library (src/src/avl.c, src/include/avl.h).

Shallow embedding of the AVL-tree engine.  A C `avl_node *` is modelled by the
inductive type `avl_node`, whose constructor `nil` stands for the `NULL`
pointer and `node l r h v` for a heap node with `left`, `right`, the cached
`height` field and the payload `value`.  Payloads (`void *value`) are modelled
as `Int` keys, and a comparison hook `int (*cmp_node)(avl_node*, avl_node*)`
that is a pure total-order comparator over payloads is modelled as a function
`Int → Int → Int` applied to the two nodes' values.  C `int` height fields are
modelled as `Int`; the library only ever stores `0`, `1`, or `1 + max` of two
stored heights, so 32-bit overflow is unreachable for any realizable tree and
no modular arithmetic is introduced.

Calls to the `free_node` hook (or `free`) are side effects with no structural
content; `_avl_delete` is modelled as returning, next to the new subtree root,
the list of payload values of the nodes handed to `free_node`/`free` during
the call, so that claims about what a call destroys can be stated.
-/

namespace AvlC

/-- A C `avl_node *`: `nil` is the `NULL` pointer, `node l r h v` a struct
with fields `left`, `right`, `height`, `value` (see `struct avl_node` in
avl.h). -/
inductive avl_node : Type where
  | nil : avl_node
  | node (left right : avl_node) (height : Int) (value : Int) : avl_node
deriving DecidableEq, Repr

namespace avl_node

/-- Field accessor `n->left`; junk value `nil` on a null pointer (a C
dereference of `NULL` is undefined; no guarded code path reaches it). -/
def left : avl_node → avl_node
  | nil => nil
  | node l _ _ _ => l

/-- Field accessor `n->right`; junk value `nil` on a null pointer. -/
def right : avl_node → avl_node
  | nil => nil
  | node _ r _ _ => r

/-- Field accessor `n->value` (the payload key); junk value `0` on a null
pointer. -/
def val : avl_node → Int
  | nil => 0
  | node _ _ _ v => v

end avl_node

open avl_node

/-- `height(n)` from avl.c: `0` for `NULL`, else the cached `n->height`. -/
def height : avl_node → Int
  | .nil => 0
  | .node _ _ h _ => h

/-- `avl_get_balance(n)` from avl.c: `0` for `NULL`, else
`height(n->left) - height(n->right)`. -/
def avl_get_balance : avl_node → Int
  | .nil => 0
  | .node l r _ _ => height l - height r

/-- `avl_rotate_right(y)` from avl.c.  In C, a call with `y == NULL` or
`y->left == NULL` dereferences `NULL`; those inputs are completed with the
argument itself and are unreachable from the guarded call sites. -/
def avl_rotate_right : avl_node → avl_node
  | .nil => .nil
  | .node .nil r h v => .node .nil r h v
  | .node (.node a b _ vx) r _ v =>
    let y2 := avl_node.node b r (max (height b) (height r) + 1) v
    .node a y2 (max (height a) (height y2) + 1) vx

/-- `avl_rotate_left(x)` from avl.c; same convention for the unreachable
`NULL` inputs as `avl_rotate_right`. -/
def avl_rotate_left : avl_node → avl_node
  | .nil => .nil
  | .node l .nil h v => .node l .nil h v
  | .node l (.node a b _ vy) _ v =>
    let x2 := avl_node.node l a (max (height l) (height a) + 1) v
    .node x2 b (max (height x2) (height b) + 1) vy

/-- The pure total-order comparator on integer payloads (the comparator the
demo `test-avl.c` installs, minus its `NULL` guard, which no library call
path exercises with non-null operands). -/
def intCmp (a b : Int) : Int := if a < b then -1 else if b < a then 1 else 0

/-- The node `_avl_node_new` builds (and the default branch of
`avl_node_dup`): `height` 1, both children `NULL`, payload `k`. -/
def freshNode (k : Int) : avl_node := .node .nil .nil 1 k

/-- Lines 449–499 of `_avl_insert`: after the recursive descent wrote the new
child back, update `node->height`, read the balance factor, and resolve the
four rotation cases, each guarded by a fresh `compare(item, child)` call
(modelled as `cmp iv (val child)`, `iv` being the inserted item's payload).
The four `if`s are kept in source order. -/
def insert_rebal (cmp : Int → Int → Int) (iv : Int) (l r : avl_node) (v : Int) :
    avl_node :=
  let h1 := 1 + max (height l) (height r)
  let balance := height l - height r
  if 1 < balance ∧ cmp iv (val l) < 0 then
    avl_rotate_right (.node l r h1 v)
  else if balance < -1 ∧ 0 < cmp iv (val r) then
    avl_rotate_left (.node l r h1 v)
  else if 1 < balance ∧ 0 < cmp iv (val l) then
    avl_rotate_right (.node (avl_rotate_left l) r h1 v)
  else if balance < -1 ∧ cmp iv (val r) < 0 then
    avl_rotate_left (.node l (avl_rotate_right r) h1 v)
  else
    .node l r h1 v

/-- `_avl_insert(node, item, compare)` from avl.c.  `compare(item, node)`
becomes `cmp iv v` on the payloads. -/
def _avl_insert (cmp : Int → Int → Int) : avl_node → avl_node → avl_node
  | .nil, item => item
  | .node l r h v, .nil => .node l r h v
  | .node l r h v, .node il ir ih iv =>
    if cmp iv v < 0 then
      insert_rebal cmp iv (_avl_insert cmp l (.node il ir ih iv)) r v
    else if 0 < cmp iv v then
      insert_rebal cmp iv l (_avl_insert cmp r (.node il ir ih iv)) v
    else
      .node l r h v

/-- `minimum_node(n)` from avl.c: follow `left` pointers to the leftmost
node.  The C loop dereferences a `NULL` argument; that input is completed
with `nil` and is unreachable from the guarded call site. -/
def minimum_node : avl_node → avl_node
  | .nil => .nil
  | .node .nil r h v => .node .nil r h v
  | .node (.node a b hh vv) _ _ _ => minimum_node (.node a b hh vv)

/-- Functional rendering of the in-place write `temp->value = root_val` in
`_avl_delete`'s two-children branch, where `temp = minimum_node(root->right)`:
the subtree with the value of its leftmost node replaced by `w`. -/
def replace_min : avl_node → Int → avl_node
  | .nil, _ => .nil
  | .node .nil r h _, w => .node .nil r h w
  | .node (.node a b hh vv) r h v, w => .node (replace_min (.node a b hh vv) w) r h v

/-- Number of nodes of a subtree (for termination of `_avl_delete`). -/
def size : avl_node → Nat
  | .nil => 0
  | .node l r _ _ => size l + size r + 1

/-- Lines 595–647 of `_avl_delete`: the comparator-free unwind performed on
the subtree root after the recursive descent returned.  `NULL` is returned
unchanged (line 595); otherwise `root->height` is recomputed and the four
deletion rebalancing cases are resolved, each guarded only by balance
factors, in source order (left-left, left-right, right-right, right-left). -/
def delete_unwind : avl_node → avl_node
  | .nil => .nil
  | .node l r _ v =>
    let h1 := 1 + max (height l) (height r)
    let balance := height l - height r
    if 1 < balance ∧ 0 ≤ avl_get_balance l then
      avl_rotate_right (.node l r h1 v)
    else if 1 < balance ∧ avl_get_balance l < 0 then
      avl_rotate_right (.node (avl_rotate_left l) r h1 v)
    else if balance < -1 ∧ avl_get_balance r ≤ 0 then
      avl_rotate_left (.node l r h1 v)
    else if balance < -1 ∧ 0 < avl_get_balance r then
      avl_rotate_left (.node l (avl_rotate_right r) h1 v)
    else
      .node l r h1 v

/-- `_avl_delete(root, target, compare, free_node)` from avl.c, with the
target represented by its payload key `k` (the code reads `target` only
through `compare`).  The second component collects the payload values of the
node structs passed to `free_node`/`free` during the call; in the
content-swap branch the freed struct holds the matched node's old contents,
hence its payload `v`.  The two-children branch swaps payloads with the
in-order successor (`replace_min r v` / `(minimum_node r).val`) and then
recursively deletes from the modified right subtree with the matched node's
old key, exactly as the pointer code does. -/
def _avl_delete (cmp : Int → Int → Int) : avl_node → Int → avl_node × List Int
  | .nil, _ => (.nil, [])
  | .node l r h v, k =>
    if cmp k v < 0 then
      let p := _avl_delete cmp l k
      (delete_unwind (.node p.1 r h v), p.2)
    else if 0 < cmp k v then
      let p := _avl_delete cmp r k
      (delete_unwind (.node l p.1 h v), p.2)
    else if l = .nil then
      if r = .nil then (.nil, [v]) else (delete_unwind r, [v])
    else if r = .nil then
      (delete_unwind l, [v])
    else
      let p := _avl_delete cmp (replace_min r v) v
      (delete_unwind (.node l p.1 h (minimum_node r).val), p.2)
termination_by t _ => size t
decreasing_by
  all_goals simp_wf
  · simp [size]; omega
  · simp [size]; omega
  · have hs : ∀ (u : avl_node) (w : Int), size (replace_min u w) = size u := by
      intro u
      induction u with
      | nil => intro w; rfl
      | node a b hh vv iha ihb =>
        intro w
        cases a with
        | nil => rfl
        | node a1 a2 h1 v1 => simp [replace_min, size, iha]
    simp [size, hs]; omega

/-- `_avl_find(root, target, compare)` from avl.c, target represented by its
payload key. -/
def _avl_find (cmp : Int → Int → Int) : avl_node → Int → avl_node
  | .nil, _ => .nil
  | .node l r h v, k =>
    if cmp k v = 0 then .node l r h v
    else if cmp k v < 0 then _avl_find cmp l k
    else _avl_find cmp r k

/-!  The five traversals.  Each C walk takes an `action` callback with no
return value; a walk is modelled as the list of nodes on which `action` is
invoked, in invocation order.  The `if (!root || !action)` guards and the
`if (root->left)` / `if (root->right)` guards before recursive calls are
no-ops under this reading (a recursive call on `NULL` contributes nothing). -/

/-- `pre_order(root, action)` from avl.c: self, left, right. -/
def pre_order : avl_node → List avl_node
  | .nil => []
  | .node l r h v => .node l r h v :: (pre_order l ++ pre_order r)

/-- `forward_order(root, action)` from avl.c: left, self, right. -/
def forward_order : avl_node → List avl_node
  | .nil => []
  | .node l r h v => forward_order l ++ .node l r h v :: forward_order r

/-- `reverse_order(root, action)` from avl.c: right, self, left. -/
def reverse_order : avl_node → List avl_node
  | .nil => []
  | .node l r h v => reverse_order r ++ .node l r h v :: reverse_order l

/-- `post_order(root, action)` from avl.c: left, right, self. -/
def post_order : avl_node → List avl_node
  | .nil => []
  | .node l r h v => post_order l ++ post_order r ++ [avl_node.node l r h v]

/-- `__tree_order(root, action, height)` from avl.c: a pre-order descent
invoking `action` exactly on nodes whose cached `height` field equals the
level argument. -/
def __tree_order (lvl : Int) : avl_node → List avl_node
  | .nil => []
  | .node l r h v =>
    (if h = lvl then [avl_node.node l r h v] else [])
      ++ __tree_order lvl l ++ __tree_order lvl r

/-- The level sequence of `tree_order`'s loop `for (i = max; i >= 1; --i)`:
`[m, m-1, ..., 1]`, empty when `m ≤ 0`. -/
def descend_levels (m : Int) : List Int :=
  (List.range m.toNat).map (fun j => m - Int.ofNat j)

/-- `tree_order(root, action)` from avl.c: for each level from the root's
cached `height` down to `1`, one `__tree_order` pass. -/
def tree_order : avl_node → List avl_node
  | .nil => []
  | .node l r h v => (descend_levels h).flatMap (fun i => __tree_order i (.node l r h v))

/-!  The tree facade (`struct avl` in avl.h).  A C `avl *` is `Option avl`
(`none` = `NULL` pointer).  The four hook pointers are `Option`s (`none` =
hook unset).  `new_node` produces a node from nothing, `dup_node` maps a node
to a node, `cmp_node` is a pure payload comparator (spec §3: "total order
over node payloads").  The `free_node` hook only releases memory, which has
no structural content here; only its presence is tracked. -/
structure avl : Type where
  root : avl_node
  height : Int
  new_node : Option (Unit → avl_node)
  dup_node : Option (avl_node → avl_node)
  free_node : Option Unit
  cmp_node : Option (Int → Int → Int)

/-- `avl_new()` (assuming `malloc` succeeds): zeroed struct — empty root,
height 0, all hooks unset. -/
def avl_new : avl :=
  { root := .nil, height := 0, new_node := none, dup_node := none,
    free_node := none, cmp_node := none }

/-- A junk comparator standing in for a call through a `NULL` `cmp_node`
function pointer, which is undefined behavior in C (spec §9); every theorem
below that exercises a comparison assumes the comparator is installed. -/
def nullCmp : Int → Int → Int := fun _ _ => 0

/-- `avl_insert(tree, item)` on a non-`NULL` tree: returns the `int` result
and the updated tree.  `_avl_insert` returns `NULL` only when both the root
and the item are `NULL`, and a `NULL` item is rejected first, so the
`if (new_root)` test succeeds on every remaining path. -/
def avl_insert_t (t : avl) (item : avl_node) : Int × avl :=
  match item with
  | .nil => (-1, t)
  | .node il ir ih iv =>
    let new_root := _avl_insert (t.cmp_node.getD nullCmp) t.root (.node il ir ih iv)
    if new_root ≠ .nil then
      (0, { t with root := new_root, height := height new_root })
    else (-1, t)

/-- `avl_insert(tree, item)` from avl.c, including the `NULL`-tree guard. -/
def avl_insert : Option avl → avl_node → Int × Option avl
  | none, _ => (-1, none)
  | some t, item =>
    let p := avl_insert_t t item
    (p.1, some p.2)

/-- `avl_delete(tree, target)` on a non-`NULL` tree: the `int` result, the
updated tree, and the payloads of the node structs freed by the call.  When
`compare` is `NULL`, `_avl_delete`'s guard returns the root unchanged.  The
tree struct is updated only when the returned root is non-`NULL`. -/
def avl_delete_t (t : avl) (target : avl_node) : Int × avl × List Int :=
  match target with
  | .nil => (-1, t, [])
  | .node _ _ _ tv =>
    match t.cmp_node with
    | none =>
      if t.root ≠ .nil then (0, { t with height := height t.root }, [])
      else (-1, t, [])
    | some c =>
      let p := _avl_delete c t.root tv
      if p.1 ≠ .nil then
        (0, { t with root := p.1, height := height p.1 }, p.2)
      else (-1, t, p.2)

/-- `avl_delete(tree, target)` from avl.c, including the `NULL`-tree guard. -/
def avl_delete : Option avl → avl_node → Int × Option avl × List Int
  | none, _ => (-1, none, [])
  | some t, target =>
    let p := avl_delete_t t target
    (p.1, some p.2.1, p.2.2)

/-- `avl_find(tree, target)` from avl.c: `NULL` on a `NULL` tree or target,
else `_avl_find` from the root with the target's payload as key. -/
def avl_find : Option avl → avl_node → avl_node
  | none, _ => .nil
  | some _, .nil => .nil
  | some t, .node _ _ _ tv => _avl_find (t.cmp_node.getD nullCmp) t.root tv

/-- `avl_node_cmp(tree, a, b)` from avl.c: `0` when the tree pointer, either
node pointer, or the compare hook is absent; otherwise the hook applied to
the two nodes (i.e. the payload comparator on their values). -/
def avl_node_cmp : Option avl → avl_node → avl_node → Int
  | none, _, _ => 0
  | some t, a, b =>
    if a = .nil ∨ b = .nil then 0
    else
      match t.cmp_node with
      | none => 0
      | some c => c (val a) (val b)

/-- `avl_node_dup(tree, node)` on a non-`NULL` tree: `NULL` stays `NULL`;
with a `dup_node` hook installed the hook's result; otherwise the default
`_avl_node_new(NULL)` shallow copy — fresh node, height 1, the same
payload. -/
def avl_node_dup (t : avl) (n : avl_node) : avl_node :=
  match n with
  | .nil => .nil
  | .node nl nr nh nv =>
    match t.dup_node with
    | some d => d (.node nl nr nh nv)
    | none => freshNode nv

/-- `dup_tree(tree, new_root, old_root)` from avl.c: in-order walk of the
source subtree; each visited node is duplicated via `avl_node_dup` and the
copy inserted into the accumulator with `_avl_insert` under the tree's
comparator.  `acc` renders the by-reference `*new_root`. -/
def dup_tree (t : avl) (acc : avl_node) : avl_node → avl_node
  | .nil => acc
  | .node l r h v =>
    let acc1 := dup_tree t acc l
    let d := avl_node_dup t (.node l r h v)
    let acc2 := if d ≠ .nil then _avl_insert (t.cmp_node.getD nullCmp) acc1 d else acc1
    dup_tree t acc2 r

/-- `avl_dup(tree)` from avl.c (assuming `malloc` succeeds): copy the struct
(hooks and cached height), reset `root` to `NULL` and `height` to `0`, then
`dup_tree`.  Note the cached `height` of the copy is left at `0`. -/
def avl_dup : Option avl → Option avl
  | none => none
  | some t => some { t with root := dup_tree t .nil t.root, height := 0 }

/-! Specification-side predicates. -/

/-- In-order list of payload keys of a subtree. -/
def inorder : avl_node → List Int
  | .nil => []
  | .node l r _ v => inorder l ++ v :: inorder r

/-- The AVL invariant of spec §3/§8, literally: at every node the cached
heights of the children differ by at most 1 and the node's cached height is
`1 + max` of theirs (absent node: height 0). -/
def AvlInv : avl_node → Bool
  | .nil => true
  | .node l r h v =>
    decide (height l - height r ≤ 1) && decide (height r - height l ≤ 1)
      && decide (h = 1 + max (height l) (height r))
      && AvlInv l && AvlInv r

/-- The BST ordering invariant: the in-order key sequence is strictly
increasing. -/
def bst (t : avl_node) : Prop := (inorder t).Pairwise (· < ·)

instance (t : avl_node) : Decidable (bst t) :=
  inferInstanceAs (Decidable ((inorder t).Pairwise (· < ·)))

/-- The facade states reachable from a fresh empty tree with the integer
comparator installed (`avl_new()` followed by `avl_set_cmp`), by successful
`avl_insert` calls of fresh nodes (`avl_node_new`'s output: height 1, no
children) and successful `avl_delete` calls with fresh key probes. -/
inductive Reachable : avl → Prop where
  | empty : Reachable { avl_new with cmp_node := some intCmp }
  | ins {t : avl} (k : Int) : Reachable t →
      (avl_insert_t t (freshNode k)).1 = 0 →
      Reachable (avl_insert_t t (freshNode k)).2
  | del {t : avl} (k : Int) : Reachable t →
      (avl_delete_t t (freshNode k)).1 = 0 →
      Reachable (avl_delete_t t (freshNode k)).2.1

/-! Basic lemmas. -/

@[simp] theorem height_nil : height .nil = 0 := rfl

@[simp] theorem height_node (l r : avl_node) (h v : Int) :
    height (.node l r h v) = h := rfl

@[simp] theorem val_node (l r : avl_node) (h v : Int) : val (.node l r h v) = v := rfl

@[simp] theorem avl_get_balance_nil : avl_get_balance .nil = 0 := rfl

@[simp] theorem avl_get_balance_node (l r : avl_node) (h v : Int) :
    avl_get_balance (.node l r h v) = height l - height r := rfl

@[simp] theorem inorder_nil : inorder .nil = [] := rfl

@[simp] theorem inorder_node (l r : avl_node) (h v : Int) :
    inorder (.node l r h v) = inorder l ++ v :: inorder r := rfl

@[simp] theorem height_freshNode (k : Int) : height (freshNode k) = 1 := rfl

@[simp] theorem inorder_freshNode (k : Int) : inorder (freshNode k) = [k] := rfl

theorem intCmp_neg_iff (a b : Int) : intCmp a b < 0 ↔ a < b := by
  simp only [intCmp]; split_ifs <;> omega

theorem intCmp_pos_iff (a b : Int) : 0 < intCmp a b ↔ b < a := by
  simp only [intCmp]; split_ifs <;> omega

theorem intCmp_zero_iff (a b : Int) : intCmp a b = 0 ↔ a = b := by
  simp only [intCmp]; split_ifs <;> (constructor <;> intro h <;> first | exact h.elim | omega)

theorem avlInv_node_iff (l r : avl_node) (h v : Int) :
    AvlInv (.node l r h v) = true ↔
      height l - height r ≤ 1 ∧ height r - height l ≤ 1
        ∧ h = 1 + max (height l) (height r)
        ∧ AvlInv l = true ∧ AvlInv r = true := by
  simp [AvlInv, Bool.and_eq_true, decide_eq_true_iff]
  tauto

theorem height_nonneg {t : avl_node} (hA : AvlInv t = true) : 0 ≤ height t := by
  induction t with
  | nil => simp [height]
  | node l r h v ihl ihr =>
    obtain ⟨_, _, hh, hAl, hAr⟩ := (avlInv_node_iff l r h v).mp hA
    have h1 := ihl hAl
    have h2 := ihr hAr
    have h3 := le_max_left (height l) (height r)
    simp only [height]; omega

theorem height_pos {t : avl_node} (hA : AvlInv t = true) (hne : t ≠ .nil) :
    1 ≤ height t := by
  cases t with
  | nil => exact absurd rfl hne
  | node l r h v =>
    obtain ⟨_, _, hh, hAl, hAr⟩ := (avlInv_node_iff l r h v).mp hA
    have h1 := height_nonneg hAl
    have h3 := le_max_left (height l) (height r)
    simp only [height]; omega

theorem ne_nil_of_height_pos {t : avl_node} (hp : 0 < height t) : t ≠ .nil := by
  intro h; subst h; simp [height] at hp

theorem inorder_eq_nil_iff (t : avl_node) : inorder t = [] ↔ t = .nil := by
  cases t with
  | nil => simp [inorder]
  | node l r h v => simp [inorder]

theorem val_mem_inorder {t : avl_node} (hne : t ≠ .nil) : val t ∈ inorder t := by
  cases t with
  | nil => exact absurd rfl hne
  | node l r h v => simp [inorder, val]

/-- Assemble the strict-sortedness of `A ++ v :: B` from its pieces. -/
theorem pairwise_mid {A B : List Int} {v : Int} (hA : A.Pairwise (· < ·))
    (hB : B.Pairwise (· < ·)) (hL : ∀ x ∈ A, x < v) (hR : ∀ y ∈ B, v < y) :
    (A ++ v :: B).Pairwise (· < ·) := by
  rw [List.pairwise_append]
  refine ⟨hA, ?_, ?_⟩
  · rw [List.pairwise_cons]; exact ⟨hR, hB⟩
  · intro x hx y hy
    rcases List.mem_cons.mp hy with hy | hy
    · exact hy ▸ hL x hx
    · exact lt_trans (hL x hx) (hR y hy)

theorem bst_node_iff (l r : avl_node) (h v : Int) :
    bst (.node l r h v) ↔
      bst l ∧ bst r ∧ (∀ x ∈ inorder l, x < v) ∧ (∀ y ∈ inorder r, v < y) := by
  constructor
  · intro hb
    unfold bst at hb
    simp only [inorder, List.pairwise_append, List.pairwise_cons] at hb
    obtain ⟨h1, ⟨h2, h3⟩, h4⟩ := hb
    exact ⟨h1, h3, fun x hx => h4 x hx v (List.mem_cons_self _ _), h2⟩
  · rintro ⟨h1, h2, h3, h4⟩
    exact pairwise_mid h1 h2 h3 h4

theorem max_facts (a b : Int) :
    (max a b = a ∨ max a b = b) ∧ a ≤ max a b ∧ b ≤ max a b :=
  ⟨max_choice a b, le_max_left a b, le_max_right a b⟩

/-- When the recomputed balance stays in `[-1, 1]`, `_avl_insert`'s unwind
performs no rotation: it just rebuilds the node with the fresh height. -/
theorem insert_rebal_nobal (cmp : Int → Int → Int) (k : Int) (l r : avl_node) (v : Int)
    (h1 : height l - height r ≤ 1) (h2 : height r - height l ≤ 1) :
    insert_rebal cmp k l r v = .node l r (1 + max (height l) (height r)) v := by
  simp only [insert_rebal]
  rw [if_neg (fun hc => absurd hc.1 (by omega)),
    if_neg (fun hc => absurd hc.1 (by omega)),
    if_neg (fun hc => absurd hc.1 (by omega)),
    if_neg (fun hc => absurd hc.1 (by omega))]

/-- `_avl_insert`'s unwind after an insertion into the left subtree made it
two levels taller than the right: the guards `compare(item, node->left)`
select the left-left or left-right rotation, and either restores the AVL
shape, preserves the in-order sequence, and leaves the subtree at the height
the left child reached. -/
theorem insert_rebal_left_rot (k : Int) (l2 r : avl_node) (v : Int)
    (hA2 : AvlInv l2 = true) (hAr : AvlInv r = true)
    (hrnn : 0 ≤ height r)
    (hb : height l2 - height r = 2)
    (hne : k ≠ val l2)
    (hpos : k < val l2 → 0 < avl_get_balance l2)
    (hneg : val l2 < k → avl_get_balance l2 < 0) :
    AvlInv (insert_rebal intCmp k l2 r v) = true
      ∧ inorder (insert_rebal intCmp k l2 r v) = inorder l2 ++ v :: inorder r
      ∧ height (insert_rebal intCmp k l2 r v) = height l2 := by
  cases l2 with
  | nil => exfalso; rw [height_nil] at hb; omega
  | node X Y h2 v2 =>
    obtain ⟨e1, e2, e3, hAX, hAY⟩ := (avlInv_node_iff X Y h2 v2).mp hA2
    rw [height_node] at hb
    simp only [val_node] at hne hpos hneg
    simp only [avl_get_balance_node] at hpos hneg
    obtain ⟨mXY, mXYa, mXYb⟩ := max_facts (height X) (height Y)
    simp only [insert_rebal, height_node, val_node]
    rcases lt_trichotomy k v2 with hk2 | hk2 | hk2
    · -- left-left: child's balance is nonnegative
      have hXY : height X = height Y + 1 := by have := hpos hk2; omega
      have hXr : height X = height r + 1 := by omega
      have hYr : height Y = height r := by omega
      rw [if_pos ⟨by omega, (intCmp_neg_iff _ _).mpr hk2⟩]
      simp only [avl_rotate_right, height_node]
      obtain ⟨p1, p1a, p1b⟩ := max_facts (height Y) (height r)
      obtain ⟨p2, p2a, p2b⟩ := max_facts (height X) (max (height Y) (height r) + 1)
      refine ⟨?_, by simp [List.append_assoc], by omega⟩
      rw [avlInv_node_iff, avlInv_node_iff]
      simp only [height_node]
      exact ⟨by omega, by omega, by omega, hAX, by omega, by omega, by omega, hAY, hAr⟩
    · exact absurd hk2 hne
    · -- left-right: child's balance is negative
      have hYX : height Y = height X + 1 := by have := hneg hk2; omega
      have hYr : height Y = height r + 1 := by omega
      have hXr : height X = height r := by omega
      have hYne : Y ≠ .nil := ne_nil_of_height_pos (by omega)
      cases Y with
      | nil => exact absurd rfl hYne
      | node Y1 Y2 hy vy =>
        obtain ⟨f1, f2, f3, hAY1, hAY2⟩ := (avlInv_node_iff Y1 Y2 hy vy).mp hAY
        rw [height_node] at hYr hYX
        obtain ⟨mYY, mYYa, mYYb⟩ := max_facts (height Y1) (height Y2)
        rw [if_neg (fun hc => absurd ((intCmp_neg_iff _ _).mp hc.2) (by omega)),
          if_neg (fun hc => absurd hc.1 (by omega)),
          if_pos ⟨by omega, (intCmp_pos_iff _ _).mpr hk2⟩]
        simp only [avl_rotate_left, height_node]
        simp only [avl_rotate_right, height_node]
        obtain ⟨m1, m1a, m1b⟩ := max_facts (height X) (height Y1)
        obtain ⟨m2, m2a, m2b⟩ := max_facts (height Y2) (height r)
        obtain ⟨m3, m3a, m3b⟩ := max_facts (max (height X) (height Y1) + 1) (height Y2)
        refine ⟨?_, by simp [List.append_assoc], by omega⟩
        rw [avlInv_node_iff, avlInv_node_iff, avlInv_node_iff]
        simp only [height_node]
        exact ⟨by omega, by omega, by omega, ⟨by omega, by omega, by omega, hAX, hAY1⟩,
          by omega, by omega, by omega, hAY2, hAr⟩

/-- Mirror image of `insert_rebal_left_rot`: the insertion went into the
right subtree and made it two levels taller than the left. -/
theorem insert_rebal_right_rot (k : Int) (l r2 : avl_node) (v : Int)
    (hAl : AvlInv l = true) (hA2 : AvlInv r2 = true)
    (hlnn : 0 ≤ height l)
    (hb : height r2 - height l = 2)
    (hne : k ≠ val r2)
    (hpos : k < val r2 → 0 < avl_get_balance r2)
    (hneg : val r2 < k → avl_get_balance r2 < 0) :
    AvlInv (insert_rebal intCmp k l r2 v) = true
      ∧ inorder (insert_rebal intCmp k l r2 v) = inorder l ++ v :: inorder r2
      ∧ height (insert_rebal intCmp k l r2 v) = height r2 := by
  cases r2 with
  | nil => exfalso; rw [height_nil] at hb; omega
  | node X Y h2 v2 =>
    obtain ⟨e1, e2, e3, hAX, hAY⟩ := (avlInv_node_iff X Y h2 v2).mp hA2
    rw [height_node] at hb
    simp only [val_node] at hne hpos hneg
    simp only [avl_get_balance_node] at hpos hneg
    obtain ⟨mXY, mXYa, mXYb⟩ := max_facts (height X) (height Y)
    simp only [insert_rebal, height_node, val_node]
    rcases lt_trichotomy k v2 with hk2 | hk2 | hk2
    · -- right-left: child's balance is positive
      have hXY : height X = height Y + 1 := by have := hpos hk2; omega
      have hXl : height X = height l + 1 := by omega
      have hYl : height Y = height l := by omega
      have hXne : X ≠ .nil := ne_nil_of_height_pos (by omega)
      cases X with
      | nil => exact absurd rfl hXne
      | node X1 X2 hx vx =>
        obtain ⟨f1, f2, f3, hAX1, hAX2⟩ := (avlInv_node_iff X1 X2 hx vx).mp hAX
        rw [height_node] at hXl hXY
        obtain ⟨mXX, mXXa, mXXb⟩ := max_facts (height X1) (height X2)
        rw [if_neg (fun hc => absurd hc.1 (by omega)),
          if_neg (fun hc => absurd ((intCmp_pos_iff _ _).mp hc.2) (by omega)),
          if_neg (fun hc => absurd hc.1 (by omega)),
          if_pos ⟨by omega, (intCmp_neg_iff _ _).mpr hk2⟩]
        simp only [avl_rotate_right, height_node]
        simp only [avl_rotate_left, height_node]
        obtain ⟨m1, m1a, m1b⟩ := max_facts (height X2) (height Y)
        obtain ⟨m2, m2a, m2b⟩ := max_facts (height l) (height X1)
        obtain ⟨m3, m3a, m3b⟩ := max_facts (max (height l) (height X1) + 1)
          (max (height X2) (height Y) + 1)
        refine ⟨?_, by simp [List.append_assoc], by omega⟩
        rw [avlInv_node_iff, avlInv_node_iff, avlInv_node_iff]
        simp only [height_node]
        exact ⟨by omega, by omega, by omega, ⟨by omega, by omega, by omega, hAl, hAX1⟩,
          by omega, by omega, by omega, hAX2, hAY⟩
    · exact absurd hk2 hne
    · -- right-right: child's balance is nonpositive
      have hYX : height Y = height X + 1 := by have := hneg hk2; omega
      have hYl : height Y = height l + 1 := by omega
      have hXl : height X = height l := by omega
      rw [if_neg (fun hc => absurd hc.1 (by omega)),
        if_pos ⟨by omega, (intCmp_pos_iff _ _).mpr hk2⟩]
      simp only [avl_rotate_left, height_node]
      obtain ⟨p1, p1a, p1b⟩ := max_facts (height l) (height X)
      obtain ⟨p2, p2a, p2b⟩ := max_facts (max (height l) (height X) + 1) (height Y)
      refine ⟨?_, by simp [List.append_assoc], by omega⟩
      rw [avlInv_node_iff, avlInv_node_iff]
      simp only [height_node]
      exact ⟨by omega, by omega, by omega, ⟨by omega, by omega, by omega, hAl, hAX⟩, hAY⟩

/-- Inserting a key into the right block of a split list, up to permutation. -/
theorem perm_insert_right {R2 R : List Int} (L : List Int) (v k : Int)
    (hp : R2.Perm (k :: R)) : (L ++ v :: R2).Perm (k :: (L ++ v :: R)) := by
  refine ((hp.cons v).append_left L).trans ?_
  have h := @List.perm_middle Int k (L ++ [v]) R
  simpa [List.append_assoc] using h

/-- Main inductive invariant of `_avl_insert` on AVL search trees, for a
fresh item `freshNode k`: the result is again an AVL search tree, its height
grows by at most one, a duplicate key leaves the tree identical, a fresh key
adds exactly `k` to the key multiset, and when the subtree grew its root key
is unchanged and its balance leans towards the side of the insertion. -/
theorem insert_go (k : Int) :
    ∀ t : avl_node, AvlInv t = true → bst t →
      AvlInv (_avl_insert intCmp t (freshNode k)) = true
      ∧ bst (_avl_insert intCmp t (freshNode k))
      ∧ (height (_avl_insert intCmp t (freshNode k)) = height t
          ∨ height (_avl_insert intCmp t (freshNode k)) = height t + 1)
      ∧ (k ∈ inorder t → _avl_insert intCmp t (freshNode k) = t)
      ∧ (k ∉ inorder t →
          (inorder (_avl_insert intCmp t (freshNode k))).Perm (k :: inorder t))
      ∧ (height (_avl_insert intCmp t (freshNode k)) = height t + 1 → t ≠ .nil →
          val (_avl_insert intCmp t (freshNode k)) = val t
          ∧ (k < val t → 0 < avl_get_balance (_avl_insert intCmp t (freshNode k)))
          ∧ (val t < k → avl_get_balance (_avl_insert intCmp t (freshNode k)) < 0)) := by
  intro t
  induction t with
  | nil =>
    intro _ _
    refine ⟨rfl, ?_, Or.inr rfl, by simp, ?_, fun _ hne => absurd rfl hne⟩
    · show ([k] : List Int).Pairwise (· < ·)
      simp
    · intro _
      exact List.Perm.refl [k]
  | node l r h v ihl ihr =>
    intro hA hB
    obtain ⟨hd1, hd2, hh, hAl, hAr⟩ := (avlInv_node_iff l r h v).mp hA
    obtain ⟨hBl, hBr, hLv, hRv⟩ := (bst_node_iff l r h v).mp hB
    have hlnn := height_nonneg hAl
    have hrnn := height_nonneg hAr
    have hunf : _avl_insert intCmp (.node l r h v) (freshNode k)
        = if intCmp k v < 0 then
            insert_rebal intCmp k (_avl_insert intCmp l (freshNode k)) r v
          else if 0 < intCmp k v then
            insert_rebal intCmp k l (_avl_insert intCmp r (freshNode k)) v
          else .node l r h v := rfl
    rcases lt_trichotomy k v with hkv | hkv | hkv
    · -- descent into the left subtree
      rw [hunf, if_pos ((intCmp_neg_iff k v).mpr hkv)]
      obtain ⟨Al2, Bl2, Hht, Hid, Hperm, Hgrow⟩ := ihl hAl hBl
      set l2 := _avl_insert intCmp l (freshNode k) with hl2def
      have hl2le : height l2 = height l ∨ height l2 = height l + 1 := Hht
      have hLv2 : ∀ x ∈ inorder l2, x < v := by
        intro x hx
        by_cases hkin : k ∈ inorder l
        · rw [Hid hkin] at hx; exact hLv x hx
        · rcases List.mem_cons.mp ((Hperm hkin).mem_iff.mp hx) with rfl | hx2
          · exact hkv
          · exact hLv x hx2
      have hmemt : k ∈ inorder (avl_node.node l r h v) → k ∈ inorder l := by
        intro hkin
        rw [inorder_node] at hkin
        rcases List.mem_append.mp hkin with hx | hx
        · exact hx
        · rcases List.mem_cons.mp hx with rfl | hx2
          · omega
          · exact absurd (hRv _ hx2) (by omega)
      by_cases hbig : 1 < height l2 - height r
      · -- the left subtree grew two levels above the right one: rotation
        have hgrow : height l2 = height l + 1 := by rcases hl2le with he | he <;> omega
        have hknotin : k ∉ inorder l := by
          intro hkin
          have hid := Hid hkin
          rw [hid] at hgrow; omega
        have hlne : l ≠ .nil := ne_nil_of_height_pos (by omega)
        obtain ⟨hval2, hbpos, hbneg⟩ := Hgrow hgrow hlne
        have hkne : k ≠ val l2 := by
          rw [hval2]; exact fun he => hknotin (he ▸ val_mem_inorder hlne)
        obtain ⟨RA, Rio, Rh⟩ := insert_rebal_left_rot k l2 r v Al2 hAr hrnn (by omega)
          hkne (by rw [hval2]; exact hbpos) (by rw [hval2]; exact hbneg)
        obtain ⟨mlr, mlra, mlrb⟩ := max_facts (height l) (height r)
        have hsame : height (insert_rebal intCmp k l2 r v) = height (avl_node.node l r h v) := by
          rw [Rh, height_node]; omega
        refine ⟨RA, ?_, Or.inl hsame, ?_, ?_, ?_⟩
        · show (inorder (insert_rebal intCmp k l2 r v)).Pairwise (· < ·)
          rw [Rio]
          exact pairwise_mid Bl2 hBr hLv2 hRv
        · intro hkin; exact absurd (hmemt hkin) hknotin
        · intro _
          rw [Rio, inorder_node]
          simpa using (Hperm hknotin).append_right (v :: inorder r)
        · intro habs _
          rw [hsame] at habs; omega
      · -- no rotation: the node is rebuilt with a fresh height
        have hble1 : height l2 - height r ≤ 1 := by omega
        have hble2 : height r - height l2 ≤ 1 := by rcases hl2le with he | he <;> omega
        rw [insert_rebal_nobal intCmp k l2 r v hble1 hble2]
        obtain ⟨m1, m1a, m1b⟩ := max_facts (height l2) (height r)
        obtain ⟨m2, m2a, m2b⟩ := max_facts (height l) (height r)
        refine ⟨?_, ?_, ?_, ?_, ?_, ?_⟩
        · rw [avlInv_node_iff]
          exact ⟨hble1, hble2, rfl, Al2, hAr⟩
        · show (inorder (avl_node.node l2 r (1 + max (height l2) (height r)) v)).Pairwise (· < ·)
          rw [inorder_node]
          exact pairwise_mid Bl2 hBr hLv2 hRv
        · simp only [height_node]; omega
        · intro hkin
          rw [Hid (hmemt hkin), hh]
        · intro hnk
          have hknotin : k ∉ inorder l := fun hx => hnk (by simp [inorder_node, hx])
          rw [inorder_node, inorder_node]
          simpa using (Hperm hknotin).append_right (v :: inorder r)
        · intro hg _
          simp only [height_node] at hg
          simp only [val_node, avl_get_balance_node]
          exact ⟨trivial, fun _ => by omega, fun hvk => absurd hvk (by omega)⟩
    · -- equal keys: duplicate, returned unchanged
      rw [hunf, if_neg (fun hc => absurd ((intCmp_neg_iff k v).mp hc) (by omega)),
        if_neg (fun hc => absurd ((intCmp_pos_iff k v).mp hc) (by omega))]
      refine ⟨hA, hB, Or.inl rfl, fun _ => rfl, ?_, fun hg _ => absurd hg (by omega)⟩
      intro hnk
      exact absurd (by simp [inorder_node, hkv]) hnk
    · -- descent into the right subtree
      rw [hunf, if_neg (fun hc => absurd ((intCmp_neg_iff k v).mp hc) (by omega)),
        if_pos ((intCmp_pos_iff k v).mpr hkv)]
      obtain ⟨Ar2, Br2, Hht, Hid, Hperm, Hgrow⟩ := ihr hAr hBr
      set r2 := _avl_insert intCmp r (freshNode k) with hr2def
      have hr2le : height r2 = height r ∨ height r2 = height r + 1 := Hht
      have hRv2 : ∀ y ∈ inorder r2, v < y := by
        intro y hy
        by_cases hkin : k ∈ inorder r
        · rw [Hid hkin] at hy; exact hRv y hy
        · rcases List.mem_cons.mp ((Hperm hkin).mem_iff.mp hy) with rfl | hy2
          · exact hkv
          · exact hRv y hy2
      have hmemt : k ∈ inorder (avl_node.node l r h v) → k ∈ inorder r := by
        intro hkin
        rw [inorder_node] at hkin
        rcases List.mem_append.mp hkin with hx | hx
        · exact absurd (hLv _ hx) (by omega)
        · rcases List.mem_cons.mp hx with rfl | hx2
          · omega
          · exact hx2
      by_cases hbig : 1 < height r2 - height l
      · -- the right subtree grew two levels above the left one: rotation
        have hgrow : height r2 = height r + 1 := by rcases hr2le with he | he <;> omega
        have hknotin : k ∉ inorder r := by
          intro hkin
          have hid := Hid hkin
          rw [hid] at hgrow; omega
        have hrne : r ≠ .nil := ne_nil_of_height_pos (by omega)
        obtain ⟨hval2, hbpos, hbneg⟩ := Hgrow hgrow hrne
        have hkne : k ≠ val r2 := by
          rw [hval2]; exact fun he => hknotin (he ▸ val_mem_inorder hrne)
        obtain ⟨RA, Rio, Rh⟩ := insert_rebal_right_rot k l r2 v hAl Ar2 hlnn (by omega)
          hkne (by rw [hval2]; exact hbpos) (by rw [hval2]; exact hbneg)
        obtain ⟨mlr, mlra, mlrb⟩ := max_facts (height l) (height r)
        have hsame : height (insert_rebal intCmp k l r2 v) = height (avl_node.node l r h v) := by
          rw [Rh, height_node]; omega
        refine ⟨RA, ?_, Or.inl hsame, ?_, ?_, ?_⟩
        · show (inorder (insert_rebal intCmp k l r2 v)).Pairwise (· < ·)
          rw [Rio]
          exact pairwise_mid hBl Br2 hLv hRv2
        · intro hkin; exact absurd (hmemt hkin) hknotin
        · intro _
          rw [Rio, inorder_node]
          exact perm_insert_right (inorder l) v k (Hperm hknotin)
        · intro habs _
          rw [hsame] at habs; omega
      · -- no rotation
        have hble1 : height l - height r2 ≤ 1 := by rcases hr2le with he | he <;> omega
        have hble2 : height r2 - height l ≤ 1 := by omega
        rw [insert_rebal_nobal intCmp k l r2 v hble1 hble2]
        obtain ⟨m1, m1a, m1b⟩ := max_facts (height l) (height r2)
        obtain ⟨m2, m2a, m2b⟩ := max_facts (height l) (height r)
        refine ⟨?_, ?_, ?_, ?_, ?_, ?_⟩
        · rw [avlInv_node_iff]
          exact ⟨hble1, hble2, rfl, hAl, Ar2⟩
        · show (inorder (avl_node.node l r2 (1 + max (height l) (height r2)) v)).Pairwise (· < ·)
          rw [inorder_node]
          exact pairwise_mid hBl Br2 hLv hRv2
        · simp only [height_node]; omega
        · intro hkin
          rw [Hid (hmemt hkin), hh]
        · intro hnk
          have hknotin : k ∉ inorder r := fun hx => hnk (by simp [inorder_node, hx])
          rw [inorder_node, inorder_node]
          exact perm_insert_right (inorder l) v k (Hperm hknotin)
        · intro hg _
          simp only [height_node] at hg
          simp only [val_node, avl_get_balance_node]
          exact ⟨trivial, fun hlt => absurd hlt (by omega), fun _ => by omega⟩

/-- On a node that already satisfies the AVL invariant, `_avl_delete`'s
unwind is the identity: the height recomputation writes the value already
cached and no rotation guard fires. -/
theorem delete_unwind_id (t : avl_node) (hA : AvlInv t = true) : delete_unwind t = t := by
  cases t with
  | nil => rfl
  | node l r h v =>
    obtain ⟨hd1, hd2, hh, hAl, hAr⟩ := (avlInv_node_iff l r h v).mp hA
    simp only [delete_unwind]
    rw [if_neg (fun hc => absurd hc.1 (by omega)),
      if_neg (fun hc => absurd hc.1 (by omega)),
      if_neg (fun hc => absurd hc.1 (by omega)),
      if_neg (fun hc => absurd hc.1 (by omega)), hh]

/-- `_avl_delete`'s unwind on a node whose children are AVL and whose heights
differ by at most two (the only situation a single deletion can create):
the result is AVL, in-order is preserved, and the height is either
`1 + max` of the children's heights, or `max` alone when the children were
exactly two levels apart and a rotation shortened the subtree. -/
theorem delete_unwind_ok (l r : avl_node) (h v : Int)
    (hAl : AvlInv l = true) (hAr : AvlInv r = true)
    (hb1 : height l - height r ≤ 2) (hb2 : height r - height l ≤ 2) :
    AvlInv (delete_unwind (.node l r h v)) = true
    ∧ inorder (delete_unwind (.node l r h v)) = inorder l ++ v :: inorder r
    ∧ (height (delete_unwind (.node l r h v)) = 1 + max (height l) (height r)
       ∨ (height (delete_unwind (.node l r h v)) = max (height l) (height r)
          ∧ (height l - height r = 2 ∨ height r - height l = 2))) := by
  have hlnn := height_nonneg hAl
  have hrnn := height_nonneg hAr
  simp only [delete_unwind]
  by_cases hLL : 1 < height l - height r
  · -- the left child is two levels taller
    have hlne : l ≠ .nil := ne_nil_of_height_pos (by omega)
    cases l with
    | nil => exact absurd rfl hlne
    | node X Y hx vx =>
      obtain ⟨e1, e2, e3, hAX, hAY⟩ := (avlInv_node_iff X Y hx vx).mp hAl
      rw [height_node] at hLL hb1 hb2 hlnn
      have hXnn := height_nonneg hAX
      have hYnn := height_nonneg hAY
      obtain ⟨mXY, mXYa, mXYb⟩ := max_facts (height X) (height Y)
      by_cases hbl : 0 ≤ height X - height Y
      · -- left-left
        rw [if_pos ⟨by rw [height_node]; omega, by rw [avl_get_balance_node]; omega⟩]
        simp only [avl_rotate_right, height_node]
        obtain ⟨p1, p1a, p1b⟩ := max_facts (height Y) (height r)
        obtain ⟨p2, p2a, p2b⟩ := max_facts (height X) (max (height Y) (height r) + 1)
        obtain ⟨p3, p3a, p3b⟩ := max_facts (hx : Int) (height r)
        refine ⟨?_, by simp [List.append_assoc], by omega⟩
        rw [avlInv_node_iff, avlInv_node_iff]
        simp only [height_node]
        exact ⟨by omega, by omega, by omega, hAX, by omega, by omega, by omega, hAY, hAr⟩
      · -- left-right
        have hYne : Y ≠ .nil := ne_nil_of_height_pos (by omega)
        cases Y with
        | nil => exact absurd rfl hYne
        | node Y1 Y2 hy vy =>
          obtain ⟨f1, f2, f3, hAY1, hAY2⟩ := (avlInv_node_iff Y1 Y2 hy vy).mp hAY
          rw [height_node] at e1 e2 e3 hbl hYnn mXY mXYa mXYb
          obtain ⟨mYY, mYYa, mYYb⟩ := max_facts (height Y1) (height Y2)
          rw [if_neg (fun hc => absurd hc.2 (by rw [avl_get_balance_node, height_node]; omega)),
            if_pos ⟨by rw [height_node]; omega,
              by rw [avl_get_balance_node, height_node]; omega⟩]
          simp only [avl_rotate_left, height_node]
          simp only [avl_rotate_right, height_node]
          obtain ⟨m1, m1a, m1b⟩ := max_facts (height X) (height Y1)
          obtain ⟨m2, m2a, m2b⟩ := max_facts (height Y2) (height r)
          obtain ⟨m3, m3a, m3b⟩ := max_facts (max (height X) (height Y1) + 1) (height Y2)
          obtain ⟨m4, m4a, m4b⟩ := max_facts (hx : Int) (height r)
          refine ⟨?_, by simp [List.append_assoc], by omega⟩
          rw [avlInv_node_iff, avlInv_node_iff, avlInv_node_iff]
          simp only [height_node]
          exact ⟨by omega, by omega, by omega, ⟨by omega, by omega, by omega, hAX, hAY1⟩,
            by omega, by omega, by omega, hAY2, hAr⟩
  · by_cases hRR : height l - height r < -1
    · -- the right child is two levels taller
      have hrne : r ≠ .nil := ne_nil_of_height_pos (by omega)
      cases r with
      | nil => exact absurd rfl hrne
      | node X Y hx vx =>
        obtain ⟨e1, e2, e3, hAX, hAY⟩ := (avlInv_node_iff X Y hx vx).mp hAr
        rw [height_node] at hRR hLL hb1 hb2 hrnn
        have hXnn := height_nonneg hAX
        have hYnn := height_nonneg hAY
        obtain ⟨mXY, mXYa, mXYb⟩ := max_facts (height X) (height Y)
        by_cases hbr : height X - height Y ≤ 0
        · -- right-right
          rw [if_neg (fun hc => absurd hc.1 (by rw [height_node]; omega)),
            if_neg (fun hc => absurd hc.1 (by rw [height_node]; omega)),
            if_pos ⟨by rw [height_node]; omega, by rw [avl_get_balance_node]; omega⟩]
          simp only [avl_rotate_left, height_node]
          obtain ⟨p1, p1a, p1b⟩ := max_facts (height l) (height X)
          obtain ⟨p2, p2a, p2b⟩ := max_facts (max (height l) (height X) + 1) (height Y)
          obtain ⟨p3, p3a, p3b⟩ := max_facts (height l) (hx : Int)
          refine ⟨?_, by simp [List.append_assoc], by omega⟩
          rw [avlInv_node_iff, avlInv_node_iff]
          simp only [height_node]
          exact ⟨by omega, by omega, by omega, ⟨by omega, by omega, by omega, hAl, hAX⟩, hAY⟩
        · -- right-left
          have hXne : X ≠ .nil := ne_nil_of_height_pos (by omega)
          cases X with
          | nil => exact absurd rfl hXne
          | node X1 X2 hxx vxx =>
            obtain ⟨f1, f2, f3, hAX1, hAX2⟩ := (avlInv_node_iff X1 X2 hxx vxx).mp hAX
            rw [height_node] at e1 e2 e3 hbr hXnn mXY mXYa mXYb
            obtain ⟨mXX, mXXa, mXXb⟩ := max_facts (height X1) (height X2)
            rw [if_neg (fun hc => absurd hc.1 (by rw [height_node]; omega)),
              if_neg (fun hc => absurd hc.1 (by rw [height_node]; omega)),
              if_neg (fun hc =>
                absurd hc.2 (by rw [avl_get_balance_node, height_node]; omega)),
              if_pos ⟨by rw [height_node]; omega,
                by rw [avl_get_balance_node, height_node]; omega⟩]
            simp only [avl_rotate_right, height_node]
            simp only [avl_rotate_left, height_node]
            obtain ⟨m1, m1a, m1b⟩ := max_facts (height X2) (height Y)
            obtain ⟨m2, m2a, m2b⟩ := max_facts (height l) (height X1)
            obtain ⟨m3, m3a, m3b⟩ := max_facts (max (height l) (height X1) + 1)
              (max (height X2) (height Y) + 1)
            obtain ⟨m4, m4a, m4b⟩ := max_facts (height l) (hx : Int)
            refine ⟨?_, by simp [List.append_assoc], by omega⟩
            rw [avlInv_node_iff, avlInv_node_iff, avlInv_node_iff]
            simp only [height_node]
            exact ⟨by omega, by omega, by omega,
              ⟨by omega, by omega, by omega, hAl, hAX1⟩,
              by omega, by omega, by omega, hAX2, hAY⟩
    · -- balanced: no rotation
      rw [if_neg (fun hc => absurd hc.1 (by omega)),
        if_neg (fun hc => absurd hc.1 (by omega)),
        if_neg (fun hc => absurd hc.1 (by omega)),
        if_neg (fun hc => absurd hc.1 (by omega))]
      refine ⟨?_, rfl, Or.inl (by rw [height_node])⟩
      rw [avlInv_node_iff]
      exact ⟨by omega, by omega, rfl, hAl, hAr⟩

theorem AvlInv_node_eq (l r : avl_node) (h v : Int) :
    AvlInv (.node l r h v)
      = (decide (height l - height r ≤ 1) && decide (height r - height l ≤ 1)
          && decide (h = 1 + max (height l) (height r)) && AvlInv l && AvlInv r) := rfl

theorem size_replace_min (t : avl_node) (w : Int) : size (replace_min t w) = size t := by
  induction t with
  | nil => rfl
  | node l r h v ihl ihr =>
    cases l with
    | nil => rfl
    | node a b hh vv =>
      simp only [replace_min, size]
      rw [ihl]
      simp [size]

theorem height_replace_min (t : avl_node) (w : Int) :
    height (replace_min t w) = height t := by
  cases t with
  | nil => rfl
  | node l r h v => cases l with
    | nil => rfl
    | node a b hh vv => rfl

theorem avlInv_replace_min (t : avl_node) (w : Int) :
    AvlInv (replace_min t w) = AvlInv t := by
  induction t with
  | nil => rfl
  | node l r h v ihl ihr =>
    cases l with
    | nil => rfl
    | node a b hh vv =>
      simp only [replace_min]
      rw [AvlInv_node_eq, AvlInv_node_eq, height_replace_min, ihl]

theorem inorder_cons (t : avl_node) (hne : t ≠ .nil) :
    ∃ x L, inorder t = x :: L := by
  cases heq : inorder t with
  | nil => exact absurd ((inorder_eq_nil_iff _).mp heq) hne
  | cons x L => exact ⟨x, L, rfl⟩

theorem inorder_replace_min (w : Int) : ∀ (t : avl_node), t ≠ .nil →
    ∀ (x : Int) (L : List Int), inorder t = x :: L →
      inorder (replace_min t w) = w :: L := by
  intro t
  induction t with
  | nil => intro hne; exact absurd rfl hne
  | node l r h v ihl ihr =>
    intro _ x L hxl
    cases l with
    | nil =>
      simp only [inorder_node, inorder_nil, List.nil_append, List.cons.injEq] at hxl
      show inorder (avl_node.node .nil r h w) = w :: L
      simp only [inorder_node, inorder_nil, List.nil_append, hxl.2]
    | node a b hh vv =>
      obtain ⟨x2, L2, hxl2⟩ := inorder_cons (avl_node.node a b hh vv) (by simp)
      have h1 := ihl (by simp) x2 L2 hxl2
      rw [inorder_node, hxl2] at hxl
      simp only [List.cons_append, List.cons.injEq] at hxl
      show inorder (avl_node.node (replace_min (avl_node.node a b hh vv) w) r h v) = w :: L
      rw [inorder_node, h1]
      simp only [List.cons_append, hxl.2]

theorem minimum_node_val : ∀ (t : avl_node), t ≠ .nil →
    ∀ (x : Int) (L : List Int), inorder t = x :: L → (minimum_node t).val = x := by
  intro t
  induction t with
  | nil => intro hne; exact absurd rfl hne
  | node l r h v ihl ihr =>
    intro _ x L hxl
    cases l with
    | nil =>
      simp only [inorder_node, inorder_nil, List.nil_append, List.cons.injEq] at hxl
      show val (avl_node.node .nil r h v) = x
      rw [val_node, hxl.1]
    | node a b hh vv =>
      obtain ⟨x2, L2, hxl2⟩ := inorder_cons (avl_node.node a b hh vv) (by simp)
      rw [inorder_node, hxl2] at hxl
      simp only [List.cons_append, List.cons.injEq] at hxl
      show (minimum_node (avl_node.node a b hh vv)).val = x
      rw [ihl (by simp) x2 L2 hxl2, hxl.1]

theorem delete_nil_eq (cmp : Int → Int → Int) (k : Int) :
    _avl_delete cmp .nil k = (.nil, []) := by
  rw [_avl_delete]

theorem delete_node_eq (cmp : Int → Int → Int) (l r : avl_node) (h v k : Int) :
    _avl_delete cmp (.node l r h v) k
      = if cmp k v < 0 then
          (delete_unwind (.node (_avl_delete cmp l k).1 r h v),
            (_avl_delete cmp l k).2)
        else if 0 < cmp k v then
          (delete_unwind (.node l (_avl_delete cmp r k).1 h v),
            (_avl_delete cmp r k).2)
        else if l = .nil then
          if r = .nil then (.nil, [v]) else (delete_unwind r, [v])
        else if r = .nil then
          (delete_unwind l, [v])
        else
          (delete_unwind
              (.node l (_avl_delete cmp (replace_min r v) v).1 h (minimum_node r).val),
            (_avl_delete cmp (replace_min r v) v).2) := by
  rw [_avl_delete]

/-- Main inductive invariant of `_avl_delete` on AVL search trees: the result
is again an AVL search tree, the height shrinks by at most one, a key that is
absent leaves the tree identical and frees nothing, and a key that is present
is removed exactly once from the key sequence with exactly one node (carrying
that key) freed.  `n` is a fuel bound on the subtree size, needed because the
two-children case recurses on a same-size modified right subtree. -/
theorem delete_go : ∀ (n : Nat) (t : avl_node) (k : Int), size t ≤ n →
    AvlInv t = true → bst t →
    AvlInv (_avl_delete intCmp t k).1 = true
    ∧ bst (_avl_delete intCmp t k).1
    ∧ (height (_avl_delete intCmp t k).1 = height t
        ∨ height (_avl_delete intCmp t k).1 + 1 = height t)
    ∧ (k ∉ inorder t → _avl_delete intCmp t k = (t, []))
    ∧ (k ∈ inorder t →
        (inorder (_avl_delete intCmp t k).1).Perm ((inorder t).erase k)
        ∧ (_avl_delete intCmp t k).2 = [k]) := by
  intro n
  induction n with
  | zero =>
    intro t k hs hA hB
    cases t with
    | nil =>
      rw [delete_nil_eq]
      exact ⟨rfl, List.Pairwise.nil, Or.inl rfl, fun _ => rfl, fun hk => absurd hk (by simp)⟩
    | node l r h v => exfalso; simp [size] at hs
  | succ n ih =>
    intro t k hs hA hB
    cases t with
    | nil =>
      rw [delete_nil_eq]
      exact ⟨rfl, List.Pairwise.nil, Or.inl rfl, fun _ => rfl, fun hk => absurd hk (by simp)⟩
    | node l r h v =>
      obtain ⟨hd1, hd2, hh, hAl, hAr⟩ := (avlInv_node_iff l r h v).mp hA
      obtain ⟨hBl, hBr, hLv, hRv⟩ := (bst_node_iff l r h v).mp hB
      have hlnn := height_nonneg hAl
      have hrnn := height_nonneg hAr
      simp only [size] at hs
      rw [delete_node_eq]
      rcases lt_trichotomy k v with hkv | hkv | hkv
      · -- the key is smaller: descend left
        rw [if_pos ((intCmp_neg_iff k v).mpr hkv)]
        simp only []
        obtain ⟨Ap, Bp, Hht, Hnot, Hin⟩ := ih l k (by omega) hAl hBl
        set p := _avl_delete intCmp l k with hpdef
        obtain ⟨UA, Uio, Uh⟩ := delete_unwind_ok p.1 r h v Ap hAr (by omega) (by omega)
        have hsub : ∀ x ∈ inorder p.1, x ∈ inorder l := by
          intro x hx
          by_cases hkin : k ∈ inorder l
          · exact List.mem_of_mem_erase ((Hin hkin).1.mem_iff.mp hx)
          · have he1 : p.1 = l := by rw [Hnot hkin]
            rw [he1] at hx; exact hx
        refine ⟨UA, ?_, ?_, ?_, ?_⟩
        · show (inorder (delete_unwind (.node p.1 r h v))).Pairwise (· < ·)
          rw [Uio]
          exact pairwise_mid Bp hBr (fun x hx => hLv x (hsub x hx)) hRv
        · obtain ⟨m1, m1a, m1b⟩ := max_facts (height p.1) (height r)
          obtain ⟨m2, m2a, m2b⟩ := max_facts (height l) (height r)
          rw [height_node]
          omega
        · intro hnk
          have hknl : k ∉ inorder l := fun hx => hnk (by simp [inorder_node, hx])
          have he1 : p.1 = l := by rw [Hnot hknl]
          have he2 : p.2 = [] := by rw [Hnot hknl]
          rw [he1, he2, delete_unwind_id _ hA]
        · intro hkin
          have hknl : k ∈ inorder l := by
            rw [inorder_node] at hkin
            rcases List.mem_append.mp hkin with hx | hx
            · exact hx
            · exfalso
              rcases List.mem_cons.mp hx with rfl | hx2
              · omega
              · exact absurd (hRv _ hx2) (by omega)
          obtain ⟨hperm, hfreed⟩ := Hin hknl
          refine ⟨?_, hfreed⟩
          rw [Uio, inorder_node, List.erase_append_left _ hknl]
          exact hperm.append_right _
      · -- the key matches: this node is deleted
        subst hkv
        rw [if_neg (fun hc => absurd ((intCmp_neg_iff _ _).mp hc) (by omega)),
          if_neg (fun hc => absurd ((intCmp_pos_iff _ _).mp hc) (by omega))]
        by_cases hl0 : l = .nil
        · subst hl0
          rw [if_pos rfl]
          rw [height_nil] at hd1 hd2 hh
          by_cases hr0 : r = .nil
          · subst hr0
            rw [if_pos rfl]
            simp only []
            rw [height_nil] at hh
            refine ⟨rfl, List.Pairwise.nil, ?_, ?_, ?_⟩
            · right
              rw [height_node]
              simp only [height_nil] at *
              omega
            · intro hnk
              exact absurd (by simp [inorder_node]) hnk
            · intro _
              constructor
              · show ([] : List Int).Perm _
                rw [inorder_node, inorder_nil]
                simp
              · trivial
          · rw [if_neg hr0, delete_unwind_id r hAr]
            simp only []
            refine ⟨hAr, hBr, ?_, ?_, ?_⟩
            · right
              rw [height_node]
              obtain ⟨m1, m1a, m1b⟩ := max_facts (0 : Int) (height r)
              omega
            · intro hnk
              exact absurd (by simp [inorder_node]) hnk
            · intro _
              refine ⟨?_, trivial⟩
              rw [inorder_node, inorder_nil, List.nil_append, List.erase_cons_head]
        · rw [if_neg hl0]
          by_cases hr0 : r = .nil
          · subst hr0
            rw [if_pos rfl, delete_unwind_id l hAl]
            simp only []
            rw [height_nil] at hd1 hd2 hh
            refine ⟨hAl, hBl, ?_, ?_, ?_⟩
            · right
              rw [height_node]
              obtain ⟨m1, m1a, m1b⟩ := max_facts (height l) (0 : Int)
              omega
            · intro hnk
              exact absurd (by simp [inorder_node]) hnk
            · intro _
              refine ⟨?_, trivial⟩
              have hvnl : k ∉ inorder l := fun hx => absurd (hLv k hx) (by omega)
              rw [inorder_node, inorder_nil, List.erase_append_right _ hvnl,
                List.erase_cons_head]
              simp
          · -- two children: swap with the in-order successor and delete it
            rw [if_neg hr0]
            simp only []
            obtain ⟨x, L, hrio⟩ := inorder_cons r hr0
            have hw : (minimum_node r).val = x := minimum_node_val r hr0 x L hrio
            have ht2io : inorder (replace_min r k) = k :: L :=
              inorder_replace_min k r hr0 x L hrio
            have hA2 : AvlInv (replace_min r k) = true := by
              rw [avlInv_replace_min]; exact hAr
            have hh2 : height (replace_min r k) = height r := height_replace_min r k
            have hBrx : (x :: L).Pairwise (· < ·) := by rw [← hrio]; exact hBr
            have hxL : ∀ y ∈ L, x < y := (List.pairwise_cons.mp hBrx).1
            have hB2 : bst (replace_min r k) := by
              show (inorder (replace_min r k)).Pairwise (· < ·)
              rw [ht2io]
              refine List.pairwise_cons.mpr ⟨?_, (List.pairwise_cons.mp hBrx).2⟩
              intro y hy
              exact hRv y (by rw [hrio]; exact List.mem_cons_of_mem x hy)
            obtain ⟨Ap, Bp, Hht2, Hnot2, Hin2⟩ := ih (replace_min r k) k
              (by rw [size_replace_min]; omega) hA2 hB2
            set p := _avl_delete intCmp (replace_min r k) k with hpdef
            rw [hh2] at Hht2
            have hvmem : k ∈ inorder (replace_min r k) := by
              rw [ht2io]; exact List.mem_cons_self k L
            obtain ⟨hperm, hfreed⟩ := Hin2 hvmem
            have hpermL : (inorder p.1).Perm L := by
              have he : (inorder (replace_min r k)).erase k = L := by
                rw [ht2io, List.erase_cons_head]
              rw [← he]; exact hperm
            obtain ⟨UA, Uio, Uh⟩ := delete_unwind_ok l p.1 h (minimum_node r).val
              hAl Ap (by omega) (by omega)
            have hvx : k < x := hRv x (by rw [hrio]; exact List.mem_cons_self x L)
            refine ⟨UA, ?_, ?_, ?_, ?_⟩
            · show (inorder (delete_unwind (.node l p.1 h (minimum_node r).val))).Pairwise (· < ·)
              rw [Uio, hw]
              exact pairwise_mid hBl Bp (fun z hz => lt_trans (hLv z hz) hvx)
                (fun y hy => hxL y (hpermL.mem_iff.mp hy))
            · obtain ⟨m1, m1a, m1b⟩ := max_facts (height l) (height p.1)
              obtain ⟨m2, m2a, m2b⟩ := max_facts (height l) (height r)
              rw [height_node]
              omega
            · intro hnk
              exact absurd (by simp [inorder_node]) hnk
            · intro _
              refine ⟨?_, hfreed⟩
              rw [Uio, hw]
              have hvnl : k ∉ inorder l := fun hx => absurd (hLv k hx) (by omega)
              rw [inorder_node, List.erase_append_right _ hvnl, List.erase_cons_head]
              refine List.Perm.append_left _ ?_
              rw [hrio]
              exact hpermL.cons x
      · -- the key is larger: descend right
        rw [if_neg (fun hc => absurd ((intCmp_neg_iff _ _).mp hc) (by omega)),
          if_pos ((intCmp_pos_iff k v).mpr hkv)]
        simp only []
        obtain ⟨Ap, Bp, Hht, Hnot, Hin⟩ := ih r k (by omega) hAr hBr
        set p := _avl_delete intCmp r k with hpdef
        obtain ⟨UA, Uio, Uh⟩ := delete_unwind_ok l p.1 h v hAl Ap (by omega) (by omega)
        have hsub : ∀ x ∈ inorder p.1, x ∈ inorder r := by
          intro x hx
          by_cases hkin : k ∈ inorder r
          · exact List.mem_of_mem_erase ((Hin hkin).1.mem_iff.mp hx)
          · have he1 : p.1 = r := by rw [Hnot hkin]
            rw [he1] at hx; exact hx
        refine ⟨UA, ?_, ?_, ?_, ?_⟩
        · show (inorder (delete_unwind (.node l p.1 h v))).Pairwise (· < ·)
          rw [Uio]
          exact pairwise_mid hBl Bp hLv (fun y hy => hRv y (hsub y hy))
        · obtain ⟨m1, m1a, m1b⟩ := max_facts (height l) (height p.1)
          obtain ⟨m2, m2a, m2b⟩ := max_facts (height l) (height r)
          rw [height_node]
          omega
        · intro hnk
          have hknr : k ∉ inorder r := fun hx => hnk (by simp [inorder_node, hx])
          have he1 : p.1 = r := by rw [Hnot hknr]
          have he2 : p.2 = [] := by rw [Hnot hknr]
          rw [he1, he2, delete_unwind_id _ hA]
        · intro hkin
          have hknr : k ∈ inorder r := by
            rw [inorder_node] at hkin
            rcases List.mem_append.mp hkin with hx | hx
            · exact absurd (hLv _ hx) (by omega)
            · rcases List.mem_cons.mp hx with rfl | hx2
              · omega
              · exact hx2
          obtain ⟨hperm, hfreed⟩ := Hin hknr
          refine ⟨?_, hfreed⟩
          have hknl : k ∉ inorder l := fun hx => absurd (hLv _ hx) (by omega)
          rw [Uio, inorder_node, List.erase_append_right _ hknl,
            List.erase_cons_tail (by simp only [beq_iff_eq]; omega)]
          exact (hperm.cons v).append_left _

theorem avl_rotate_right_ne_nil (l r : avl_node) (h v : Int) :
    avl_rotate_right (.node l r h v) ≠ .nil := by
  cases l <;> simp [avl_rotate_right]

theorem avl_rotate_left_ne_nil (l r : avl_node) (h v : Int) :
    avl_rotate_left (.node l r h v) ≠ .nil := by
  cases r <;> simp [avl_rotate_left]

theorem insert_rebal_ne_nil (cmp : Int → Int → Int) (iv : Int) (l r : avl_node) (v : Int) :
    insert_rebal cmp iv l r v ≠ .nil := by
  simp only [insert_rebal]
  split_ifs
  · exact avl_rotate_right_ne_nil _ _ _ _
  · exact avl_rotate_left_ne_nil _ _ _ _
  · exact avl_rotate_right_ne_nil _ _ _ _
  · exact avl_rotate_left_ne_nil _ _ _ _
  · simp

/-- `_avl_insert` never returns `NULL` when the inserted item is a real node:
every branch returns a node or a rotation of a node. -/
theorem insert_fresh_ne_nil (cmp : Int → Int → Int) (t : avl_node) (k : Int) :
    _avl_insert cmp t (freshNode k) ≠ .nil := by
  cases t with
  | nil => simp [_avl_insert, freshNode]
  | node l r h v =>
    show (if cmp k v < 0 then _ else if 0 < cmp k v then _ else _) ≠ avl_node.nil
    split_ifs
    · exact insert_rebal_ne_nil _ _ _ _ _
    · exact insert_rebal_ne_nil _ _ _ _ _
    · simp

/-- `avl_insert` on a fresh item with the integer comparator installed:
the `if (new_root)` test always succeeds, so the call reports success and
commits the new root and recomputed height. -/
theorem avl_insert_t_fresh (t : avl) (hc : t.cmp_node = some intCmp) (k : Int) :
    avl_insert_t t (freshNode k)
      = (0, { t with
          root := _avl_insert intCmp t.root (freshNode k),
          height := height (_avl_insert intCmp t.root (freshNode k)) }) := by
  show (if _avl_insert (t.cmp_node.getD nullCmp) t.root (freshNode k) ≠ .nil
        then (0, { t with
          root := _avl_insert (t.cmp_node.getD nullCmp) t.root (freshNode k),
          height := height (_avl_insert (t.cmp_node.getD nullCmp) t.root (freshNode k)) })
        else (-1, t)) = _
  rw [hc]
  simp only [Option.getD_some]
  rw [if_pos (insert_fresh_ne_nil intCmp t.root k)]

theorem avl_delete_t_fresh (t : avl) (hc : t.cmp_node = some intCmp) (k : Int) :
    avl_delete_t t (freshNode k)
      = if (_avl_delete intCmp t.root k).1 ≠ .nil then
          (0, { t with
            root := (_avl_delete intCmp t.root k).1,
            height := height (_avl_delete intCmp t.root k).1 },
            (_avl_delete intCmp t.root k).2)
        else (-1, t, (_avl_delete intCmp t.root k).2) := by
  show (match t.cmp_node with
        | none => if t.root ≠ .nil then (0, { t with height := height t.root }, ([] : List Int))
                  else (-1, t, ([] : List Int))
        | some c =>
          if (_avl_delete c t.root k).1 ≠ .nil then
            (0, { t with
              root := (_avl_delete c t.root k).1,
              height := height (_avl_delete c t.root k).1 }, (_avl_delete c t.root k).2)
          else (-1, t, (_avl_delete c t.root k).2)) = _
  rw [hc]

/-- The facade invariant carried by every reachable tree state: the root is
an AVL search tree and the comparator is still installed. -/
theorem reachable_inv (t : avl) (hr : Reachable t) :
    AvlInv t.root = true ∧ bst t.root ∧ t.cmp_node = some intCmp := by
  induction hr with
  | empty => exact ⟨rfl, List.Pairwise.nil, rfl⟩
  | @ins s k hr hrv ih =>
    obtain ⟨hA, hB, hc⟩ := ih
    rw [avl_insert_t_fresh s hc k]
    obtain ⟨A2, B2, _, _, _, _⟩ := insert_go k s.root hA hB
    exact ⟨A2, B2, hc⟩
  | @del s k hr hrv ih =>
    obtain ⟨hA, hB, hc⟩ := ih
    rw [avl_delete_t_fresh s hc k]
    obtain ⟨A2, B2, _, _, _⟩ := delete_go (size s.root) s.root k le_rfl hA hB
    by_cases hp : (_avl_delete intCmp s.root k).1 ≠ .nil
    · rw [if_pos hp]
      exact ⟨A2, B2, hc⟩
    · rw [if_neg hp]
      exact ⟨hA, hB, hc⟩

theorem forward_map_val : ∀ t : avl_node, (forward_order t).map val = inorder t := by
  intro t
  induction t with
  | nil => rfl
  | node l r h v ihl ihr =>
    simp only [forward_order, inorder_node, List.map_append, List.map_cons, val_node, ihl, ihr]

theorem reverse_order_eq_reverse : ∀ t : avl_node,
    reverse_order t = (forward_order t).reverse := by
  intro t
  induction t with
  | nil => rfl
  | node l r h v ihl ihr =>
    simp only [reverse_order, forward_order, List.reverse_append, List.reverse_cons, ihl, ihr]
    simp

theorem forward_perm_pre : ∀ t : avl_node, (forward_order t).Perm (pre_order t) := by
  intro t
  induction t with
  | nil => exact List.Perm.refl _
  | node l r h v ihl ihr =>
    show (forward_order l ++ _ :: forward_order r).Perm (_ :: (pre_order l ++ pre_order r))
    exact List.perm_middle.trans ((ihl.append ihr).cons _)

/-- C5: on a tree satisfying the BST ordering invariant, the forward-order
walk invokes the action once per node (it is a permutation of the node
enumeration) with keys in non-decreasing order, and the reverse-order walk
visits exactly the reversed sequence of the forward-order walk. -/
theorem claim_C5_traversal_order (t : avl_node) (hB : bst t) :
    ((forward_order t).map val).Pairwise (· ≤ ·)
    ∧ (forward_order t).Perm (pre_order t)
    ∧ reverse_order t = (forward_order t).reverse := by
  refine ⟨?_, forward_perm_pre t, reverse_order_eq_reverse t⟩
  rw [forward_map_val]
  exact hB.imp le_of_lt

/-- Witness for C5 at a concrete three-node search tree. -/
theorem claim_C5_witness :
    ((forward_order (.node (.node .nil .nil 1 1) (.node .nil .nil 1 3) 2 2)).map val).Pairwise
        (· ≤ ·)
    ∧ (forward_order (.node (.node .nil .nil 1 1) (.node .nil .nil 1 3) 2 2)).Perm
        (pre_order (.node (.node .nil .nil 1 1) (.node .nil .nil 1 3) 2 2))
    ∧ reverse_order (.node (.node .nil .nil 1 1) (.node .nil .nil 1 3) 2 2)
        = (forward_order (.node (.node .nil .nil 1 1) (.node .nil .nil 1 3) 2 2)).reverse :=
  claim_C5_traversal_order (.node (.node .nil .nil 1 1) (.node .nil .nil 1 3) 2 2) (by decide)

theorem freshNode_ne_nil (k : Int) : freshNode k ≠ .nil := by simp [freshNode]

/-- Two strictly sorted integer lists that are permutations of each other are
equal. -/
theorem sorted_lt_eq_of_perm {A B : List Int} (hp : A.Perm B)
    (hA : A.Pairwise (· < ·)) (hB : B.Pairwise (· < ·)) : A = B := by
  haveI : IsAntisymm Int (· < ·) := ⟨fun a b h1 h2 => absurd h2 (lt_asymm h1)⟩
  exact List.eq_of_perm_of_sorted hp hA hB

/-- With the duplicate hook unset and the integer comparator installed,
`dup_tree` is an in-order left fold inserting a fresh copy of each visited
payload. -/
theorem dup_tree_fold (t : avl) (hc : t.cmp_node = some intCmp)
    (hd : t.dup_node = none) :
    ∀ (s acc : avl_node), dup_tree t acc s
      = (inorder s).foldl (fun a k => _avl_insert intCmp a (freshNode k)) acc := by
  intro s
  induction s with
  | nil => intro acc; rfl
  | node l r h v ihl ihr =>
    intro acc
    show dup_tree t
        (if avl_node_dup t (.node l r h v) ≠ .nil
          then _avl_insert (t.cmp_node.getD nullCmp) (dup_tree t acc l)
            (avl_node_dup t (.node l r h v))
          else dup_tree t acc l) r = _
    rw [show avl_node_dup t (.node l r h v) = freshNode v by
          show (match t.dup_node with
                | some d => d (.node l r h v)
                | none => freshNode v) = freshNode v
          rw [hd]]
    rw [if_pos (freshNode_ne_nil v), hc]
    simp only [Option.getD_some]
    rw [ihl, ihr, inorder_node, List.foldl_append, List.foldl_cons]

/-- Folding a strictly increasing key list into an AVL search tree with
`_avl_insert` of fresh nodes keeps the invariant and appends the keys to the
in-order sequence. -/
theorem fold_insert_sorted :
    ∀ (L : List Int) (acc : avl_node), AvlInv acc = true → bst acc →
      L.Pairwise (· < ·) → (∀ x ∈ inorder acc, ∀ y ∈ L, x < y) →
      AvlInv (L.foldl (fun a k => _avl_insert intCmp a (freshNode k)) acc) = true
      ∧ bst (L.foldl (fun a k => _avl_insert intCmp a (freshNode k)) acc)
      ∧ inorder (L.foldl (fun a k => _avl_insert intCmp a (freshNode k)) acc)
          = inorder acc ++ L := by
  intro L
  induction L with
  | nil => intro acc hA hB _ _; exact ⟨hA, hB, by simp⟩
  | cons k L ihL =>
    intro acc hA hB hLs hcross
    obtain ⟨A1, B1, _, _, Hperm, _⟩ := insert_go k acc hA hB
    have hknot : k ∉ inorder acc :=
      fun hx => absurd (hcross k hx k (List.mem_cons_self k L)) (lt_irrefl k)
    have hio : inorder (_avl_insert intCmp acc (freshNode k)) = inorder acc ++ [k] := by
      refine sorted_lt_eq_of_perm ((Hperm hknot).trans (List.perm_append_singleton k _).symm)
        B1 ?_
      refine (List.pairwise_append).mpr ⟨hB, List.pairwise_singleton _ _, ?_⟩
      intro x hx y hy
      rw [List.mem_singleton] at hy
      exact hy ▸ hcross x hx k (List.mem_cons_self k L)
    rw [List.foldl_cons]
    have hcross2 : ∀ x ∈ inorder (_avl_insert intCmp acc (freshNode k)), ∀ y ∈ L, x < y := by
      intro x hx y hy
      rw [hio] at hx
      rcases List.mem_append.mp hx with hx2 | hx2
      · exact hcross x hx2 y (List.mem_cons_of_mem k hy)
      · rw [List.mem_singleton] at hx2
        exact hx2 ▸ (List.pairwise_cons.mp hLs).1 y hy
    obtain ⟨A3, B3, hio3⟩ := ihL (_avl_insert intCmp acc (freshNode k)) A1 B1
      (List.pairwise_cons.mp hLs).2 hcross2
    refine ⟨A3, B3, ?_⟩
    rw [hio3, hio]
    simp

/-- C6: duplicating a non-empty well-formed AVL search tree (integer
comparator installed, default duplicate hook) yields a tree with the same
forward-order key sequence whose nodes satisfy the AVL invariant; it is
built by the in-order `dup_tree` walk inserting fresh copies with
`_avl_insert`. -/
theorem claim_C6_dup_fidelity (t : avl) (hne : t.root ≠ .nil)
    (hc : t.cmp_node = some intCmp) (hd : t.dup_node = none)
    (hA : AvlInv t.root = true) (hB : bst t.root) :
    ∃ t2 : avl, avl_dup (some t) = some t2
      ∧ (forward_order t2.root).map val = (forward_order t.root).map val
      ∧ AvlInv t2.root = true := by
  obtain ⟨A3, B3, hio3⟩ := fold_insert_sorted (inorder t.root) .nil rfl
    List.Pairwise.nil hB (by intro x hx; exact absurd hx (by simp))
  refine ⟨{ t with root := dup_tree t .nil t.root, height := 0 }, rfl, ?_, ?_⟩
  · rw [forward_map_val, forward_map_val]
    show inorder (dup_tree t .nil t.root) = inorder t.root
    rw [dup_tree_fold t hc hd t.root .nil, hio3]
    simp
  · show AvlInv (dup_tree t .nil t.root) = true
    rw [dup_tree_fold t hc hd t.root .nil]
    exact A3

/-- C1: every tree state reachable from the fresh empty tree (integer
comparator installed) by sequences of successful `avl_insert` calls of fresh
nodes and successful `avl_delete` calls satisfies, at every node, both
`|height(left) - height(right)| ≤ 1` and `height = 1 + max` of the
children's heights, where an absent node has height 0 — this is exactly the
recursively-checked predicate `AvlInv` on the facade's root. -/
theorem claim_C1_avl_invariant (t : avl) (hr : Reachable t) : AvlInv t.root = true :=
  (reachable_inv t hr).1

/-- Witness for C1: the state after inserting 2, 1, 3 and deleting 1. -/
theorem claim_C1_witness :
    AvlInv ((avl_delete_t
      { avl_new with
        cmp_node := some intCmp,
        root := .node (.node .nil .nil 1 1) (.node .nil .nil 1 3) 2 2,
        height := 2 }
      (freshNode 1)).2.1).root = true :=
  claim_C1_avl_invariant _
    (Reachable.del 1
      (Reachable.ins 3
        (Reachable.ins 1
          (Reachable.ins 2 Reachable.empty (by decide))
          (by decide))
        (by decide))
      (by rw [avl_delete_t_fresh _ rfl]
          simp [delete_node_eq, delete_nil_eq, delete_unwind, intCmp, height,
            avl_get_balance]))

/-- Witness for C6 at a concrete one-node tree. -/
theorem claim_C6_witness :
    ∃ t2 : avl,
      avl_dup (some { avl_new with cmp_node := some intCmp, root := freshNode 5, height := 1 })
          = some t2
        ∧ (forward_order t2.root).map val
            = (forward_order (avl.root
                { avl_new with cmp_node := some intCmp, root := freshNode 5, height := 1 })).map val
        ∧ AvlInv t2.root = true :=
  claim_C6_dup_fidelity
    { avl_new with cmp_node := some intCmp, root := freshNode 5, height := 1 }
    (by decide) rfl rfl (by decide) (by decide)

/-- C7: during `_avl_delete`'s unwind the rebalancing factors through the
comparator-free `delete_unwind` (the descent cases pass the reassembled node
straight to it), and whenever the recomputed balance exceeds 1 (resp. falls
below -1) the straight-vs-double rotation choice is made by the child's own
balance factor with thresholds `≥ 0`/`< 0` (resp. `≤ 0`/`> 0`) — for every
comparator, so never by a fresh key comparison. -/
theorem claim_C7_delete_rebalance_rule (cmp : Int → Int → Int) (l r : avl_node)
    (h v k : Int) :
    (cmp k v < 0 → _avl_delete cmp (.node l r h v) k
        = (delete_unwind (.node (_avl_delete cmp l k).1 r h v),
           (_avl_delete cmp l k).2))
    ∧ (0 < cmp k v → _avl_delete cmp (.node l r h v) k
        = (delete_unwind (.node l (_avl_delete cmp r k).1 h v),
           (_avl_delete cmp r k).2))
    ∧ (1 < height l - height r →
        (0 ≤ avl_get_balance l →
          delete_unwind (.node l r h v)
            = avl_rotate_right (.node l r (1 + max (height l) (height r)) v))
        ∧ (avl_get_balance l < 0 →
          delete_unwind (.node l r h v)
            = avl_rotate_right (.node (avl_rotate_left l) r
                (1 + max (height l) (height r)) v)))
    ∧ (height l - height r < -1 →
        (avl_get_balance r ≤ 0 →
          delete_unwind (.node l r h v)
            = avl_rotate_left (.node l r (1 + max (height l) (height r)) v))
        ∧ (0 < avl_get_balance r →
          delete_unwind (.node l r h v)
            = avl_rotate_left (.node l (avl_rotate_right r)
                (1 + max (height l) (height r)) v))) := by
  refine ⟨?_, ?_, ?_, ?_⟩
  · intro hc
    rw [delete_node_eq, if_pos hc]
  · intro hc
    rw [delete_node_eq, if_neg (by omega), if_pos hc]
  · intro hbal
    constructor
    · intro hchild
      show (if 1 < height l - height r ∧ 0 ≤ avl_get_balance l then _ else _) = _
      rw [if_pos ⟨hbal, hchild⟩]
    · intro hchild
      show (if 1 < height l - height r ∧ 0 ≤ avl_get_balance l then _ else _) = _
      rw [if_neg (fun hc => absurd hc.2 (by omega)), if_pos ⟨hbal, hchild⟩]
  · intro hbal
    constructor
    · intro hchild
      show (if 1 < height l - height r ∧ 0 ≤ avl_get_balance l then _ else _) = _
      rw [if_neg (fun hc => absurd hc.1 (by omega)),
        if_neg (fun hc => absurd hc.1 (by omega)), if_pos ⟨hbal, hchild⟩]
    · intro hchild
      show (if 1 < height l - height r ∧ 0 ≤ avl_get_balance l then _ else _) = _
      rw [if_neg (fun hc => absurd hc.1 (by omega)),
        if_neg (fun hc => absurd hc.1 (by omega)),
        if_neg (fun hc => absurd hc.2 (by omega)), if_pos ⟨hbal, hchild⟩]

/-- Witness for C7: a left-descent step and a left-left deletion rotation at
concrete inputs. -/
theorem claim_C7_witness :
    _avl_delete intCmp (.node (.node .nil .nil 1 1) (.node .nil .nil 1 3) 2 2) 1
        = (delete_unwind (.node
            (_avl_delete intCmp (.node .nil .nil 1 1) 1).1 (.node .nil .nil 1 3) 2 2),
           (_avl_delete intCmp (.node .nil .nil 1 1) 1).2)
    ∧ delete_unwind (.node (.node (.node .nil .nil 1 1) .nil 2 2) .nil 9 5)
        = avl_rotate_right (.node (.node (.node .nil .nil 1 1) .nil 2 2) .nil
            (1 + max (height (.node (.node .nil .nil 1 1) .nil 2 2)) (height .nil)) 5) :=
  ⟨(claim_C7_delete_rebalance_rule intCmp (.node .nil .nil 1 1) (.node .nil .nil 1 3) 2 2 1).1
      (by decide),
   ((claim_C7_delete_rebalance_rule intCmp (.node (.node .nil .nil 1 1) .nil 2 2) .nil 9 5 0).2.2.1
      (by decide)).1 (by decide)⟩

theorem tree_order_filter (lvl : Int) : ∀ t : avl_node,
    __tree_order lvl t = (pre_order t).filter (fun n => decide (height n = lvl)) := by
  intro t
  induction t with
  | nil => rfl
  | node l r h v ihl ihr =>
    show ((if h = lvl then [avl_node.node l r h v] else [])
        ++ __tree_order lvl l ++ __tree_order lvl r) = _
    rw [ihl, ihr]
    show _ = List.filter _ (.node l r h v :: (pre_order l ++ pre_order r))
    rw [List.filter_cons, List.filter_append]
    by_cases hl : h = lvl
    · rw [if_pos hl]
      simp [height_node, hl]
    · rw [if_neg hl]
      simp [height_node, hl]

/-- C8: on a non-empty tree, the tree-order walk is the concatenation, for
each level from the root's cached height down to 1 (in that order), of a
full pre-order descent invoking the action exactly on the nodes whose cached
height field equals that level. -/
theorem claim_C8_tree_order (l r : avl_node) (h v : Int) :
    tree_order (.node l r h v)
      = (descend_levels h).flatMap
          (fun i => (pre_order (.node l r h v)).filter (fun n => decide (height n = i)))
    ∧ (∀ i : Int, i ∈ descend_levels h ↔ 1 ≤ i ∧ i ≤ h)
    ∧ (descend_levels h).Pairwise (· > ·) := by
  refine ⟨?_, ?_, ?_⟩
  · show (descend_levels h).flatMap (fun i => __tree_order i (.node l r h v)) = _
    rw [show (fun i => __tree_order i (avl_node.node l r h v))
        = (fun i => (pre_order (avl_node.node l r h v)).filter
            (fun n => decide (height n = i))) from
      funext fun i => tree_order_filter i _]
  · intro i
    constructor
    · intro hmem
      obtain ⟨j, hj, he⟩ := List.mem_map.mp hmem
      rw [List.mem_range] at hj
      simp only [Int.ofNat_eq_coe] at he
      omega
    · intro hi
      refine List.mem_map.mpr ⟨(h - i).toNat, ?_, ?_⟩
      · rw [List.mem_range]; omega
      · simp only [Int.ofNat_eq_coe]; omega
  · show ((List.range h.toNat).map (fun j => h - Int.ofNat j)).Pairwise (· > ·)
    rw [List.pairwise_map]
    refine (List.pairwise_lt_range h.toNat).imp ?_
    intro a b hab
    simp only [Int.ofNat_eq_coe]
    show h - (a : Int) > h - (b : Int)
    omega

theorem find_go : ∀ (t : avl_node) (k : Int), bst t →
    (k ∈ inorder t →
        _avl_find intCmp t k ∈ pre_order t
        ∧ val (_avl_find intCmp t k) = k
        ∧ _avl_find intCmp t k ≠ .nil)
    ∧ (k ∉ inorder t → _avl_find intCmp t k = .nil) := by
  intro t
  induction t with
  | nil => intro k _; exact ⟨fun hk => absurd hk (by simp), fun _ => rfl⟩
  | node l r h v ihl ihr =>
    intro k hB
    obtain ⟨hBl, hBr, hLv, hRv⟩ := (bst_node_iff l r h v).mp hB
    have hunf : _avl_find intCmp (.node l r h v) k
        = if intCmp k v = 0 then .node l r h v
          else if intCmp k v < 0 then _avl_find intCmp l k
          else _avl_find intCmp r k := rfl
    rcases lt_trichotomy k v with hkv | hkv | hkv
    · rw [hunf, if_neg (fun hc => absurd ((intCmp_zero_iff _ _).mp hc) (by omega)),
        if_pos ((intCmp_neg_iff _ _).mpr hkv)]
      constructor
      · intro hk
        have hkl : k ∈ inorder l := by
          rw [inorder_node] at hk
          rcases List.mem_append.mp hk with hx | hx
          · exact hx
          · exfalso
            rcases List.mem_cons.mp hx with rfl | hx2
            · omega
            · exact absurd (hRv _ hx2) (by omega)
        obtain ⟨hm, hv2, hne⟩ := (ihl k hBl).1 hkl
        exact ⟨by
          show _ ∈ avl_node.node l r h v :: (pre_order l ++ pre_order r)
          exact List.mem_cons_of_mem _ (List.mem_append_left _ hm), hv2, hne⟩
      · intro hnk
        exact (ihl k hBl).2 (fun hx => hnk (by simp [inorder_node, hx]))
    · rw [hunf, if_pos ((intCmp_zero_iff _ _).mpr hkv)]
      refine ⟨fun _ => ⟨List.mem_cons_self _ _, by rw [val_node]; omega, by simp⟩, ?_⟩
      intro hnk
      exact absurd (by simp [inorder_node, hkv]) hnk
    · rw [hunf, if_neg (fun hc => absurd ((intCmp_zero_iff _ _).mp hc) (by omega)),
        if_neg (fun hc => absurd ((intCmp_neg_iff _ _).mp hc) (by omega))]
      constructor
      · intro hk
        have hkr : k ∈ inorder r := by
          rw [inorder_node] at hk
          rcases List.mem_append.mp hk with hx | hx
          · exact absurd (hLv _ hx) (by omega)
          · rcases List.mem_cons.mp hx with rfl | hx2
            · omega
            · exact hx2
        obtain ⟨hm, hv2, hne⟩ := (ihr k hBr).1 hkr
        exact ⟨by
          show _ ∈ avl_node.node l r h v :: (pre_order l ++ pre_order r)
          exact List.mem_cons_of_mem _ (List.mem_append_right _ hm), hv2, hne⟩
      · intro hnk
        exact (ihr k hBr).2 (fun hx => hnk (by simp [inorder_node, hx]))

/-- C9: `avl_find` returns `NULL` for a `NULL` tree or target (the malformed
inputs); with the comparator installed and a BST root, it returns a node of
the tree carrying the target's key exactly when such a node exists, and
`NULL` (the normal not-found result) when none does. -/
theorem claim_C9_find (tr : Option avl) (target : avl_node) :
    (tr = none → avl_find tr target = .nil)
    ∧ (target = .nil → avl_find tr target = .nil)
    ∧ (∀ t : avl, tr = some t → t.cmp_node = some intCmp → target ≠ .nil →
        bst t.root →
        (val target ∈ inorder t.root →
            avl_find tr target ∈ pre_order t.root
            ∧ val (avl_find tr target) = val target
            ∧ avl_find tr target ≠ .nil)
        ∧ (val target ∉ inorder t.root → avl_find tr target = .nil)) := by
  refine ⟨?_, ?_, ?_⟩
  · rintro rfl; rfl
  · rintro rfl
    cases tr with
    | none => rfl
    | some t => rfl
  · rintro t rfl hc htne hB
    cases target with
    | nil => exact absurd rfl htne
    | node tl trr th tv =>
      have he : avl_find (some t) (.node tl trr th tv) = _avl_find intCmp t.root tv := by
        show _avl_find (t.cmp_node.getD nullCmp) t.root tv = _
        rw [hc]
        simp only [Option.getD_some]
      rw [he, val_node]
      exact find_go t.root tv hB

/-- Witness for C9: finding key 5 in a one-node tree, and key 7 absent. -/
theorem claim_C9_witness :
    (avl_find (some { avl_new with cmp_node := some intCmp, root := freshNode 5, height := 1 })
        (freshNode 5) ∈ pre_order (freshNode 5)
      ∧ val (avl_find
          (some { avl_new with cmp_node := some intCmp, root := freshNode 5, height := 1 })
          (freshNode 5)) = val (freshNode 5)
      ∧ avl_find (some { avl_new with cmp_node := some intCmp, root := freshNode 5, height := 1 })
          (freshNode 5) ≠ .nil)
    ∧ avl_find (some { avl_new with cmp_node := some intCmp, root := freshNode 5, height := 1 })
        (freshNode 7) = .nil :=
  ⟨(claim_C9_find
      (some { avl_new with cmp_node := some intCmp, root := freshNode 5, height := 1 })
      (freshNode 5)).2.2 _ rfl rfl (by decide) (by decide)
    |>.1 (by decide),
   (claim_C9_find
      (some { avl_new with cmp_node := some intCmp, root := freshNode 5, height := 1 })
      (freshNode 7)).2.2 _ rfl rfl (by decide) (by decide)
    |>.2 (by decide)⟩

/-- C10: `avl_node_cmp` returns 0 whenever the tree pointer, either node
pointer, or the compare hook is absent; otherwise it returns exactly the
installed hook applied to the two nodes (the payload comparator on their
values). -/
theorem claim_C10_node_cmp (tr : Option avl) (a b : avl_node) :
    ((tr = none ∨ a = .nil ∨ b = .nil
        ∨ (∃ t : avl, tr = some t ∧ t.cmp_node = none)) → avl_node_cmp tr a b = 0)
    ∧ (∀ (t : avl) (c : Int → Int → Int), tr = some t → t.cmp_node = some c →
        a ≠ .nil → b ≠ .nil → avl_node_cmp tr a b = c (val a) (val b)) := by
  constructor
  · rintro (rfl | rfl | rfl | ⟨t, rfl, hc⟩)
    · rfl
    · cases tr with
      | none => rfl
      | some t =>
        show (if avl_node.nil = .nil ∨ b = .nil then (0 : Int)
              else match t.cmp_node with
                   | none => 0
                   | some c => c (val .nil) (val b)) = 0
        rw [if_pos (Or.inl rfl)]
    · cases tr with
      | none => rfl
      | some t =>
        show (if a = .nil ∨ avl_node.nil = .nil then (0 : Int)
              else match t.cmp_node with
                   | none => 0
                   | some c => c (val a) (val .nil)) = 0
        rw [if_pos (Or.inr rfl)]
    · show (if a = .nil ∨ b = .nil then (0 : Int)
            else match t.cmp_node with
                 | none => 0
                 | some c => c (val a) (val b)) = 0
      rw [hc]
      by_cases hab : a = .nil ∨ b = .nil
      · rw [if_pos hab]
      · rw [if_neg hab]
  · rintro t c rfl hc ha hb
    show (if a = .nil ∨ b = .nil then (0 : Int)
          else match t.cmp_node with
               | none => 0
               | some c2 => c2 (val a) (val b)) = c (val a) (val b)
    rw [if_neg (by tauto), hc]

/-- Witness for C10: a null operand yields 0; with the comparator installed
and real nodes the hook's value is returned. -/
theorem claim_C10_witness :
    avl_node_cmp (some { avl_new with cmp_node := some intCmp }) .nil (freshNode 2) = 0
    ∧ avl_node_cmp (some { avl_new with cmp_node := some intCmp })
        (freshNode 1) (freshNode 2) = intCmp (val (freshNode 1)) (val (freshNode 2)) :=
  ⟨(claim_C10_node_cmp (some { avl_new with cmp_node := some intCmp }) .nil
      (freshNode 2)).1 (Or.inr (Or.inl rfl)),
   (claim_C10_node_cmp (some { avl_new with cmp_node := some intCmp }) (freshNode 1)
      (freshNode 2)).2 _ intCmp rfl rfl (by decide) (by decide)⟩

/-- C2 (code-bug evidence): inserting an item whose key equals an existing
node's key makes `avl_insert` return 0 — the success code, not the claimed
and documented failure code -1 — because `_avl_insert` hands back the
unchanged non-NULL root and the facade maps every non-NULL root to success.
The tree is left untouched and the item is not linked. -/
theorem claim_C2_duplicate_insert_returns_zero :
    (avl_insert (some { avl_new with
        cmp_node := some intCmp,
        root := freshNode 5,
        height := 1 }) (freshNode 5)).1 = 0
    ∧ (avl_insert (some { avl_new with
        cmp_node := some intCmp,
        root := freshNode 5,
        height := 1 }) (freshNode 5)).2
      = some { avl_new with
          cmp_node := some intCmp,
          root := freshNode 5,
          height := 1 } :=
  ⟨rfl, rfl⟩

/-- C3 (code-bug evidence): `avl_delete`'s `new_root != NULL` success test is
wrong in both directions.  Deleting the absent key 6 from the two-node tree
{5, 7} returns 0 (claim says -1); deleting key 5 from the one-node tree {5}
returns -1 even though the key is present and the node is freed, and the
facade keeps the stale root. -/
theorem claim_C3_delete_return_codes :
    (avl_delete (some { avl_new with
        cmp_node := some intCmp,
        root := .node .nil (.node .nil .nil 1 7) 2 5,
        height := 2 }) (freshNode 6)).1 = 0
    ∧ (avl_delete (some { avl_new with
        cmp_node := some intCmp,
        root := freshNode 5,
        height := 1 }) (freshNode 5)).1 = -1
    ∧ (avl_delete (some { avl_new with
        cmp_node := some intCmp,
        root := freshNode 5,
        height := 1 }) (freshNode 5)).2.1
      = some { avl_new with
          cmp_node := some intCmp,
          root := freshNode 5,
          height := 1 } := by
  refine ⟨?_, ?_, ?_⟩
  · show (avl_delete_t { avl_new with
        cmp_node := some intCmp,
        root := .node .nil (.node .nil .nil 1 7) 2 5,
        height := 2 } (freshNode 6)).1 = 0
    rw [avl_delete_t_fresh _ rfl]
    simp [delete_node_eq, delete_nil_eq, delete_unwind, intCmp, height, avl_get_balance]
  · show (avl_delete_t { avl_new with
        cmp_node := some intCmp,
        root := freshNode 5,
        height := 1 } (freshNode 5)).1 = -1
    rw [avl_delete_t_fresh _ rfl]
    simp [delete_node_eq, delete_nil_eq, delete_unwind, intCmp, height, avl_get_balance,
      freshNode]
  · show some ((avl_delete_t { avl_new with
        cmp_node := some intCmp,
        root := freshNode 5,
        height := 1 } (freshNode 5)).2.1) = _
    rw [avl_delete_t_fresh _ rfl]
    simp [delete_node_eq, delete_nil_eq, delete_unwind, intCmp, height, avl_get_balance,
      freshNode]

/-- C4 (code-bug evidence): the delete of the only node of a tree violates
atomicity as the claim states it: the call reports failure (-1) and leaves
the facade's root pointing at the old node, yet the node was handed to the
free hook (payload 5 freed) — a failing call destroyed a node. -/
theorem claim_C4_failing_delete_destroys_node :
    (avl_delete (some { avl_new with
        cmp_node := some intCmp,
        root := freshNode 5,
        height := 1 }) (freshNode 5)).1 = -1
    ∧ (avl_delete (some { avl_new with
        cmp_node := some intCmp,
        root := freshNode 5,
        height := 1 }) (freshNode 5)).2.2 = [5]
    ∧ (avl_delete (some { avl_new with
        cmp_node := some intCmp,
        root := freshNode 5,
        height := 1 }) (freshNode 5)).2.1
      = some { avl_new with
          cmp_node := some intCmp,
          root := freshNode 5,
          height := 1 } := by
  refine ⟨?_, ?_, ?_⟩
  · show (avl_delete_t { avl_new with
        cmp_node := some intCmp,
        root := freshNode 5,
        height := 1 } (freshNode 5)).1 = -1
    rw [avl_delete_t_fresh _ rfl]
    simp [delete_node_eq, delete_nil_eq, delete_unwind, intCmp, height, avl_get_balance,
      freshNode]
  · show (avl_delete_t { avl_new with
        cmp_node := some intCmp,
        root := freshNode 5,
        height := 1 } (freshNode 5)).2.2 = [5]
    rw [avl_delete_t_fresh _ rfl]
    simp [delete_node_eq, delete_nil_eq, delete_unwind, intCmp, height, avl_get_balance,
      freshNode]
  · show some ((avl_delete_t { avl_new with
        cmp_node := some intCmp,
        root := freshNode 5,
        height := 1 } (freshNode 5)).2.1) = _
    rw [avl_delete_t_fresh _ rfl]
    simp [delete_node_eq, delete_nil_eq, delete_unwind, intCmp, height, avl_get_balance,
      freshNode]

end AvlC
